import Mathlib

/-!
# Source workspace assembly: `pkg/source.go`

A shallow embedding of `Sources`, `SetupWorkDir`, `TagRepo` and
`StandardizeManifest` from `src/pkg/source.go`, together with the library
routines they call (`path.Join`, `path.Clean`, `strings.TrimSpace`,
`fmt.Errorf`), and the properties of the workflow proved over it.

Go strings are modelled as lists of characters.  Everything the program does
to the outside world (creating directories, cloning, copying, running `git`)
is an `Op`; the outside world is an oracle that answers each operation given
the operations performed so far, and every function threads the list of
operations performed (the trace).
-/

namespace ReleaseBuilder

/-- Go `string`, as the list of its characters. -/
abbrev Str := List Char

/-! ## `path.Clean` and `path.Join` (Go standard library) -/

/-- The write side of the `lazybuf` of `path.Clean`: `out` is `buf[0:w]`
(so `w = out.length`), `dotdot` is the index where `..` must stop. -/
structure CleanState where
  out : Str
  dotdot : Nat
deriving DecidableEq, Repr

/-- The test `r+k == n || path[r+k] == '/'` on the unread input. -/
def atEnd : Str → Bool
  | [] => true
  | c :: _ => c == '/'

/-- The backtracking loop of the `..` case, entered after `out.w--` with
`w` the decremented index: `for out.w > dotdot && out.index(out.w) != '/' { out.w-- }`.
Returns the final `w`. -/
def backtrack (out : Str) (dotdot : Nat) : Nat → Nat
  | 0 => 0
  | w + 1 =>
    if w + 1 > dotdot ∧ out.getD (w + 1) '/' ≠ '/' then backtrack out dotdot w else w + 1

/-- The `..` case of `path.Clean`: backtrack when possible, otherwise (not
rooted) append a `..` element, otherwise (rooted) drop it. -/
def dotdotStep (rooted : Bool) (st : CleanState) : CleanState :=
  if st.out.length > st.dotdot then
    { st with out := st.out.take (backtrack st.out st.dotdot (st.out.length - 1)) }
  else if rooted = false then
    let o := (if st.out.length > 0 then st.out ++ ['/'] else st.out) ++ ['.', '.']
    { out := o, dotdot := o.length }
  else st

/-- The start of the default case of `path.Clean`, "add slash if needed":
`if rooted && out.w != 1 || !rooted && out.w != 0 { out.append('/') }`. -/
def withSlash (rooted : Bool) (out : Str) : Str :=
  if (rooted = true ∧ out.length ≠ 1) ∨ (rooted = false ∧ out.length ≠ 0)
    then out ++ ['/'] else out

/-- The default case of `path.Clean`: add a slash if needed, then copy the
element (the bytes up to the next slash). -/
def elemStep (rooted : Bool) (path : Str) (st : CleanState) : CleanState :=
  { st with out := withSlash rooted st.out ++ path.takeWhile (fun c => c != '/') }

/-- The main loop `for r < n` of `path.Clean` on the unread input `path[r:]`.
Every iteration consumes at least one byte, so `fuel` equal to the length of
the input is never exhausted (`cleanLoop_fuel`). -/
def cleanLoop (rooted : Bool) : Nat → Str → CleanState → CleanState
  | 0, _, st => st
  | _ + 1, [], st => st
  | fuel + 1, c :: rest, st =>
    if c = '/' then
      cleanLoop rooted fuel rest st
    else if c = '.' ∧ atEnd rest = true then
      cleanLoop rooted fuel rest st
    else if c = '.' ∧ rest.head? = some '.' ∧ atEnd rest.tail = true then
      cleanLoop rooted fuel rest.tail (dotdotStep rooted st)
    else
      cleanLoop rooted fuel ((c :: rest).dropWhile (fun c => c != '/'))
        (elemStep rooted (c :: rest) st)

/-- Go `path.Clean`. -/
def Clean (path : Str) : Str :=
  if path = [] then ['.']
  else
    let rooted : Bool := path.head? = some '/'
    let st0 : CleanState := if rooted then ⟨['/'], 1⟩ else ⟨[], 0⟩
    let body := if rooted then path.tail else path
    let st := cleanLoop rooted path.length body st0
    if st.out.length = 0 then ['.'] else st.out

/-- Go `path.Join`: the elements from the first non-empty one on, joined by
slashes and cleaned; the empty string when every element is empty. -/
def Join : List Str → Str
  | [] => []
  | e :: rest => if e ≠ [] then Clean (List.intercalate ['/'] (e :: rest)) else Join rest

/-- A plain name: one path element, that is a non-empty string without a slash
that is neither `.` nor `..`. -/
def plainName (r : Str) : Prop :=
  r ≠ [] ∧ '/' ∉ r ∧ r ≠ ['.'] ∧ r ≠ ['.', '.']

instance plainNameDecidable (r : Str) : Decidable (plainName r) := by
  unfold plainName
  infer_instance

/-! ## `strings.TrimSpace` (Go standard library) -/

/-- Go `unicode.IsSpace`: the Latin-1 spaces `\t \n \v \f \r`, space, U+0085,
U+00A0, and the other code points of the Unicode `White_Space` property. -/
def isSpace (c : Char) : Bool :=
  let n := c.toNat
  (9 ≤ n ∧ n ≤ 13) ∨ n = 0x20 ∨ n = 0x85 ∨ n = 0xA0 ∨ n = 0x1680 ∨
  (0x2000 ≤ n ∧ n ≤ 0x200A) ∨ n = 0x2028 ∨ n = 0x2029 ∨ n = 0x202F ∨ n = 0x205F ∨ n = 0x3000

/-- Go `strings.TrimSpace`: the string without its leading and trailing white
space. -/
def TrimSpace (s : Str) : Str :=
  ((s.dropWhile isSpace).reverse.dropWhile isSpace).reverse

/-! ## Data model (`pkg/model`) -/

/-- Modelled from the spec: the declaration of `model.Dependency` is missing
from the sources; the fields are those of the data model (`Repo`, `Branch`,
`Sha`), all strings, which are also the only fields `source.go` reads or
writes. -/
structure Dependency where
  Repo : Str
  Branch : Str
  Sha : Str
deriving DecidableEq, Repr

/-- Modelled from the spec: the declaration of `model.Manifest` is missing from
the sources; the fields are those of the data model (`Version`, `Directory`,
`Dependencies`). -/
structure Manifest where
  Version : Str
  Directory : Str
  Dependencies : List Dependency
deriving DecidableEq, Repr

/-- Modelled from the spec: the method `Manifest.SourceDir` is missing from the
sources; `SourceDir = Directory/sources`, the slash being `path.Join` as in
`path.Join(manifest.SourceDir(), dependency.Repo)` for `SourceDir/Repo`. -/
def Manifest.SourceDir (m : Manifest) : Str := Join [m.Directory, "sources".toList]

/-- Modelled from the spec: the method `Manifest.WorkDir` is missing from the
sources; `WorkDir = Directory/work`. -/
def Manifest.WorkDir (m : Manifest) : Str := Join [m.Directory, "work".toList]

/-- Modelled from the spec: the method `Manifest.OutDir` is missing from the
sources; `OutDir = Directory/out`. -/
def Manifest.OutDir (m : Manifest) : Str := Join [m.Directory, "out".toList]

/-- Modelled from the spec: the method `Manifest.RepoDir` is missing from the
sources; `RepoDir(name) = WorkDir/name`. -/
def Manifest.RepoDir (m : Manifest) (repo : Str) : Str := Join [m.WorkDir, repo]

/-! ## Errors and the outside world -/

/-- A non-nil Go `error`, identified by its message; `Option GoError` is the Go
type `error`, `none` being `nil`. -/
structure GoError where
  msg : Str
deriving DecidableEq, Repr

/-- The operations on the outside world that `source.go` performs. -/
inductive Op
  /-- The call `ioutil.TempDir(dir, pattern)`. -/
  | TempDir (dir pattern : Str)
  /-- The call `os.Mkdir(name, perm)`. -/
  | Mkdir (name : Str) (perm : Nat)
  /-- The call `util.Clone(dependency, dest)`: fetch a dependency into a path. -/
  | Clone (dep : Dependency) (dest : Str)
  /-- The call `util.CopyDir(src, dst)`: copy a directory tree. -/
  | CopyDir (src dst : Str)
  /-- The call `cmd.Run()` of the command `util.VerboseCommand(name, args...)`
  with `cmd.Dir = dir`. -/
  | Run (name : Str) (args : List Str) (dir : Str)
deriving DecidableEq, Repr

/-- What an operation answers: `out` is the name returned by `ioutil.TempDir`
or the standard output of a command, `err` the returned error. -/
structure Result where
  out : Str
  err : Option GoError
deriving DecidableEq, Repr

/-- The outside world: the value of `os.TempDir()` and, for every list of
operations performed so far, the answer to the next operation. -/
structure World where
  TempDir : Str
  exec : List Op → Op → Result

/-! ## `fmt.Errorf` at the three call sites of `Sources` -/

/-- Modelled from the spec: the declaration of `model.Dependency` is missing, so
its rendering under `%+v` is that of a plain struct with the fields of the data
model: an opening brace, `Repo:r Branch:b Sha:s`, a closing brace. -/
def fmtDependency (d : Dependency) : Str :=
  "\x7bRepo:".toList ++ d.Repo ++ " Branch:".toList ++ d.Branch ++ " Sha:".toList ++ d.Sha
    ++ "\x7d".toList

/-- The steps of `Sources` for one dependency. -/
inductive Step
  | fetch
  | copy
  | tag
deriving DecidableEq, Repr

/-- The text of each format string of `Sources` before its first verb. -/
def leadingText : Step → Str
  | .fetch => "failed to resolve ".toList
  | .copy => "failed to copy dependency ".toList
  | .tag => "failed to tag repo ".toList

/-- The error `fmt.Errorf("failed to resolve %+v: %v", dependency, err)`. -/
def errResolve (dependency : Dependency) (err : GoError) : GoError :=
  ⟨leadingText .fetch ++ fmtDependency dependency ++ ": ".toList ++ err.msg⟩

/-- The error
`fmt.Errorf("failed to copy dependency %v to working directory: %v", dependency.Repo, err)`. -/
def errCopy (dependency : Dependency) (err : GoError) : GoError :=
  ⟨leadingText .copy ++ dependency.Repo ++ " to working directory: ".toList ++ err.msg⟩

/-- The error `fmt.Errorf("failed to tag repo %v: %v", dependency.Repo, err)`. -/
def errTag (dependency : Dependency) (err : GoError) : GoError :=
  ⟨leadingText .tag ++ dependency.Repo ++ ": ".toList ++ err.msg⟩

/-- The error `Sources` returns when `step` fails for `dependency` with cause
`err`. -/
def stepError : Step → Dependency → GoError → GoError
  | .fetch => errResolve
  | .copy => errCopy
  | .tag => errTag

/-! ## `SetupWorkDir` -/

/-- The four operations of `SetupWorkDir` when `ioutil.TempDir` answers
`tmpdir`: the temporary root, then `sources`, `work` and `out` with mode
`0750`. -/
def setupOps (w : World) (tmpdir : Str) : List Op :=
  [Op.TempDir w.TempDir "istio-release".toList,
   Op.Mkdir (Join [tmpdir, "sources".toList]) 0o750,
   Op.Mkdir (Join [tmpdir, "work".toList]) 0o750,
   Op.Mkdir (Join [tmpdir, "out".toList]) 0o750]

/-- Go `SetupWorkDir`.  `log.Fatalf` ends the process: the result is then
`none` and nothing further is performed.  The second component is the trace
after the call. -/
def SetupWorkDir (w : World) (t : List Op) : Option Str × List Op :=
  let op0 := Op.TempDir w.TempDir "istio-release".toList
  let r0 := w.exec t op0
  match r0.err with
  | some _ => (none, t ++ [op0])
  | none =>
    let tmpdir := r0.out
    let t1 := t ++ [op0]
    let op1 := Op.Mkdir (Join [tmpdir, "sources".toList]) 0o750
    match (w.exec t1 op1).err with
    | some _ => (none, t1 ++ [op1])
    | none =>
      let t2 := t1 ++ [op1]
      let op2 := Op.Mkdir (Join [tmpdir, "work".toList]) 0o750
      match (w.exec t2 op2).err with
      | some _ => (none, t2 ++ [op2])
      | none =>
        let t3 := t2 ++ [op2]
        let op3 := Op.Mkdir (Join [tmpdir, "out".toList]) 0o750
        match (w.exec t3 op3).err with
        | some _ => (none, t3 ++ [op3])
        | none => (some tmpdir, t3 ++ [op3])

/-! ## `TagRepo` -/

/-- The command `git tag <version>` run in `repo`. -/
def tagOp (manifest : Manifest) (repo : Str) : Op :=
  Op.Run "git".toList ["tag".toList, manifest.Version] repo

/-- Go `TagRepo`: the error of the one command and the trace after the call. -/
def TagRepo (w : World) (t : List Op) (manifest : Manifest) (repo : Str) :
    Option GoError × List Op :=
  let cmd := tagOp manifest repo
  ((w.exec t cmd).err, t ++ [cmd])

/-! ## `Sources` -/

/-- The body of the `for ... range manifest.Dependencies` loop of `Sources`,
over the dependencies still to process.  `log.Infof` only writes a log line
and is left out. -/
def sourcesLoop (w : World) (manifest : Manifest) :
    List Dependency → List Op → Option GoError × List Op
  | [], t => (none, t)
  | dependency :: rest, t =>
    let op1 := Op.Clone dependency (Join [manifest.SourceDir, dependency.Repo])
    match (w.exec t op1).err with
    | some err => (some (errResolve dependency err), t ++ [op1])
    | none =>
      let t1 := t ++ [op1]
      let src := Join [manifest.SourceDir, dependency.Repo]
      let op2 := Op.CopyDir src (manifest.RepoDir dependency.Repo)
      match (w.exec t1 op2).err with
      | some err => (some (errCopy dependency err), t1 ++ [op2])
      | none =>
        match TagRepo w (t1 ++ [op2]) manifest (manifest.RepoDir dependency.Repo) with
        | (some err, t3) => (some (errTag dependency err), t3)
        | (none, t3) => sourcesLoop w manifest rest t3

/-- How a call ends: the process is ended by `log.Fatalf`, or the call returns
an `error`. -/
inductive Outcome
  | aborted
  | returned (err : Option GoError)
deriving DecidableEq, Repr

/-- What a call `Sources(manifest)` leaves behind.  The parameter is a
`model.Manifest` value, so the callee works on its own copy of the struct:
`own` is that copy when the call ends, `caller` is the manifest of the caller
after the call. -/
structure SourcesResult where
  outcome : Outcome
  own : Manifest
  caller : Manifest
  trace : List Op

/-- The manifest after the assignment `manifest.Directory = dir`. -/
def Manifest.withDirectory (manifest : Manifest) (dir : Str) : Manifest :=
  { manifest with Directory := dir }

/-- Go `Sources`.  The assignment `manifest.Directory = SetupWorkDir()` writes
the callee's copy of the struct; no element of `Dependencies` is written, so
the caller's manifest is what it was. -/
def Sources (w : World) (t : List Op) (manifest : Manifest) : SourcesResult :=
  match SetupWorkDir w t with
  | (none, t1) => ⟨.aborted, manifest, manifest, t1⟩
  | (some dir, t1) =>
    let own : Manifest := manifest.withDirectory dir
    let r := sourcesLoop w own own.Dependencies t1
    ⟨.returned r.1, own, manifest, r.2⟩

/-- The position of a step among the three steps of one dependency. -/
def Step.index : Step → Nat
  | .fetch => 0
  | .copy => 1
  | .tag => 2

/-- The step at a position among the three steps. -/
def stepOfIndex : Nat → Step
  | 0 => .fetch
  | 1 => .copy
  | _ => .tag

/-- The operation `Sources` performs for a step of a dependency: fetch into
`path.Join(SourceDir, Repo)`, copy from there to `RepoDir(Repo)`, tag
`RepoDir(Repo)` with the version. -/
def stepOp (manifest : Manifest) : Step → Dependency → Op
  | .fetch, d => Op.Clone d (Join [manifest.SourceDir, d.Repo])
  | .copy, d => Op.CopyDir (Join [manifest.SourceDir, d.Repo]) (manifest.RepoDir d.Repo)
  | .tag, d => Op.Run "git".toList ["tag".toList, manifest.Version] (manifest.RepoDir d.Repo)

/-- The three operations of one dependency, in order. -/
def depOps (manifest : Manifest) (d : Dependency) : List Op :=
  [stepOp manifest .fetch d, stepOp manifest .copy d, stepOp manifest .tag d]

/-- The operations of the loop of `Sources` over `deps` when none fails. -/
def sourcesPlan (manifest : Manifest) (deps : List Dependency) : List Op :=
  deps.flatMap (depOps manifest)

/-! ## `StandardizeManifest` -/

/-- The command `git rev-parse HEAD` run in `RepoDir(repo)`. -/
def revParseOp (manifest : Manifest) (repo : Str) : Op :=
  Op.Run "git".toList ["rev-parse".toList, "HEAD".toList] (manifest.RepoDir repo)

/-- The loop `for i, dep := range manifest.Dependencies` of
`StandardizeManifest` from index `i` on, `n` being the number of indices left.
The manifest is behind a pointer: the store `manifest.Dependencies[i] = dep`
is on the caller's manifest, which is returned with the error and the trace. -/
def standardizeLoop (w : World) :
    Nat → Nat → Manifest → List Op → Option GoError × Manifest × List Op
  | 0, _, manifest, t => (none, manifest, t)
  | n + 1, i, manifest, t =>
    match manifest.Dependencies[i]? with
    | none => (none, manifest, t)
    | some dep =>
      let cmd := revParseOp manifest dep.Repo
      let r := w.exec t cmd
      match r.err with
      | some err => (some err, manifest, t ++ [cmd])
      | none =>
        let dep1 : Dependency := { dep with Sha := TrimSpace r.out, Branch := [] }
        standardizeLoop w n (i + 1)
          { manifest with Dependencies := manifest.Dependencies.set i dep1 } (t ++ [cmd])

/-- Go `StandardizeManifest`: the returned error, the manifest behind the
pointer after the call, and the trace after the call. -/
def StandardizeManifest (w : World) (t : List Op) (manifest : Manifest) :
    Option GoError × Manifest × List Op :=
  standardizeLoop w manifest.Dependencies.length 0 manifest t

/-- The commands `StandardizeManifest` runs when none fails: one
`git rev-parse HEAD` per dependency, in manifest order. -/
def revParseOps (manifest : Manifest) : List Op :=
  manifest.Dependencies.map (fun d => revParseOp manifest d.Repo)

/-! ## Reading a planned sequence of operations against the world -/

/-- The error answered to the `i`-th operation of `ops` when `ops` are
performed in order after the trace `t` (`none` also when there is no `i`-th
operation). -/
def runErr (w : World) (t : List Op) (ops : List Op) (i : Nat) : Option GoError :=
  match ops[i]? with
  | some op => (w.exec (t ++ ops.take i) op).err
  | none => none

/-- The output answered to the `i`-th operation of `ops` when `ops` are
performed in order after the trace `t`. -/
def runOut (w : World) (t : List Op) (ops : List Op) (i : Nat) : Str :=
  match ops[i]? with
  | some op => (w.exec (t ++ ops.take i) op).out
  | none => []

/-! ## Worlds and manifests for the examples -/

/-- A world where everything succeeds: `ioutil.TempDir` answers
`/tmp/istio-release1` and every command prints a commit identifier and a
newline. -/
def okWorld : World where
  TempDir := "/tmp".toList
  exec := fun _ op =>
    match op with
    | .TempDir _ _ => ⟨"/tmp/istio-release1".toList, none⟩
    | .Run _ _ _ => ⟨"0123456789abcdef0123456789abcdef01234567\n".toList, none⟩
    | _ => ⟨[], none⟩

/-- A world where everything succeeds and every command prints only a
newline. -/
def blankWorld : World where
  TempDir := "/tmp".toList
  exec := fun _ op =>
    match op with
    | .TempDir _ _ => ⟨"/tmp/istio-release1".toList, none⟩
    | _ => ⟨"\n".toList, none⟩

/-- A world where the operations selected by `bad` fail with the error
`exit status 1` and the others answer as in `okWorld`. -/
def failingWorld (bad : Op → Bool) : World where
  TempDir := "/tmp".toList
  exec := fun _ op =>
    if bad op then ⟨[], some ⟨"exit status 1".toList⟩⟩ else okWorld.exec [] op

/-- A manifest with two dependencies, before `Sources`. -/
def manifestAB : Manifest where
  Version := "v1.2.3".toList
  Directory := []
  Dependencies := [⟨"a".toList, "main".toList, []⟩, ⟨"b".toList, "main".toList, []⟩]

/-- A manifest whose `Repo` names are pairwise distinct but not plain: `a`,
`a/` and `../sources/a`, in the workspace root `/tmp/istio-release1`. -/
def manifestAlias : Manifest where
  Version := "v1.2.3".toList
  Directory := "/tmp/istio-release1".toList
  Dependencies := [⟨"a".toList, "main".toList, []⟩, ⟨"a/".toList, "main".toList, []⟩,
    ⟨"../sources/a".toList, "main".toList, []⟩]

/-- A manifest with the one dependency `..`, before `Sources`. -/
def manifestDotDot : Manifest where
  Version := "v1.2.3".toList
  Directory := []
  Dependencies := [⟨"..".toList, "main".toList, []⟩]

/-- The same manifest once the workspace root is `/tmp/istio-release1`. -/
def manifestInWork : Manifest :=
  { manifestAB with Directory := "/tmp/istio-release1".toList }


/-! ## The library routines on the cases of their own test tables -/

/-- The embedding of `path.Clean` on cases of the table of the Go library's
own tests: empty path, trailing and repeated slashes, `.` and `..` elements,
rooted and not. -/
theorem Clean_table :
    Clean "".toList = ".".toList ∧
    Clean "abc/def".toList = "abc/def".toList ∧
    Clean "/".toList = "/".toList ∧
    Clean "abc/def/".toList = "abc/def".toList ∧
    Clean "../../".toList = "../..".toList ∧
    Clean "abc//def//ghi".toList = "abc/def/ghi".toList ∧
    Clean "//abc//".toList = "/abc".toList ∧
    Clean "/./abc/def".toList = "/abc/def".toList ∧
    Clean "abc/.".toList = "abc".toList ∧
    Clean "abc/def/../ghi/../jkl".toList = "abc/jkl".toList ∧
    Clean "abc/def/../..".toList = ".".toList ∧
    Clean "/abc/def/../../..".toList = "/".toList ∧
    Clean "abc/def/../../../ghi/jkl/../../../mno".toList = "../../mno".toList ∧
    Clean "abc/../../././../def".toList = "../../def".toList := by
  decide

/-- The embedding of `path.Join` on cases of the table of the Go library's own
tests: empty elements are skipped and the result is cleaned. -/
theorem Join_table :
    Join [] = [] ∧
    Join ["".toList] = [] ∧
    Join ["a".toList, "b".toList] = "a/b".toList ∧
    Join ["a".toList, "".toList] = "a".toList ∧
    Join ["".toList, "b".toList] = "b".toList ∧
    Join ["/".toList, "a".toList] = "/a".toList ∧
    Join ["a/".toList, "b".toList] = "a/b".toList ∧
    Join ["".toList, "".toList] = [] := by
  decide

/-- The embedding of `strings.TrimSpace` on an output as `git` prints it, on
white space alone, and on white space inside the string. -/
theorem TrimSpace_table :
    TrimSpace "0123abc\n".toList = "0123abc".toList ∧
    TrimSpace " \t\r\n".toList = [] ∧
    TrimSpace "  a b  ".toList = "a b".toList := by
  decide

/-! ## `SetupWorkDir` and `TagRepo` -/

/-- C10: `SetupWorkDir` returns a root exactly when the temporary root and then
`sources`, `work` and `out` under it were all created, in that order and each
subdirectory with mode `0750`; the root is the name `ioutil.TempDir` answered
and the four creations are all it performed.  It ends the process, returning
no path, exactly when one of the four creations fails. -/
theorem SetupWorkDir_root_or_abort (w : World) (t : List Op) :
    (∀ root t1, SetupWorkDir w t = (some root, t1) ↔
      (root = (w.exec t (Op.TempDir w.TempDir "istio-release".toList)).out ∧
       t1 = t ++ [Op.TempDir w.TempDir "istio-release".toList,
                  Op.Mkdir (Join [root, "sources".toList]) 0o750,
                  Op.Mkdir (Join [root, "work".toList]) 0o750,
                  Op.Mkdir (Join [root, "out".toList]) 0o750] ∧
       runErr w t (setupOps w root) 0 = none ∧ runErr w t (setupOps w root) 1 = none ∧
       runErr w t (setupOps w root) 2 = none ∧ runErr w t (setupOps w root) 3 = none)) ∧
    ((SetupWorkDir w t).1 = none ↔
      ∃ i, i < 4 ∧
        runErr w t (setupOps w (w.exec t (Op.TempDir w.TempDir "istio-release".toList)).out) i
          ≠ none) := by
  have h4 : ∀ P : Nat → Prop, (∃ i, i < 4 ∧ P i) ↔ (P 0 ∨ P 1 ∨ P 2 ∨ P 3) := by
    intro P
    constructor
    · rintro ⟨i, hi, hp⟩
      interval_cases i <;> simp [hp]
    · rintro (h | h | h | h)
      exacts [⟨0, by omega, h⟩, ⟨1, by omega, h⟩, ⟨2, by omega, h⟩, ⟨3, by omega, h⟩]
  have E0 : ∀ root, runErr w t (setupOps w root) 0 =
      (w.exec t (Op.TempDir w.TempDir "istio-release".toList)).err := by
    intro root; simp [runErr, setupOps]
  have E1 : ∀ root, runErr w t (setupOps w root) 1 =
      (w.exec (t ++ [Op.TempDir w.TempDir "istio-release".toList])
        (Op.Mkdir (Join [root, "sources".toList]) 0o750)).err := by
    intro root; simp [runErr, setupOps]
  have E2 : ∀ root, runErr w t (setupOps w root) 2 =
      (w.exec (t ++ [Op.TempDir w.TempDir "istio-release".toList] ++
          [Op.Mkdir (Join [root, "sources".toList]) 0o750])
        (Op.Mkdir (Join [root, "work".toList]) 0o750)).err := by
    intro root; simp [runErr, setupOps]
  have E3 : ∀ root, runErr w t (setupOps w root) 3 =
      (w.exec (t ++ [Op.TempDir w.TempDir "istio-release".toList] ++
          [Op.Mkdir (Join [root, "sources".toList]) 0o750] ++
          [Op.Mkdir (Join [root, "work".toList]) 0o750])
        (Op.Mkdir (Join [root, "out".toList]) 0o750)).err := by
    intro root; simp [runErr, setupOps]
  rw [h4]
  simp only [E0, E1, E2, E3]
  refine ⟨fun root t1 => ⟨fun h => ?_, ?_⟩, ?_⟩
  · unfold SetupWorkDir at h
    dsimp only at h
    split at h
    · simp at h
    · split at h
      · simp at h
      · split at h
        · simp at h
        · split at h
          · simp at h
          · simp only [Prod.mk.injEq, Option.some.injEq] at h
            obtain ⟨rfl, rfl⟩ := h
            exact ⟨rfl, by simp, by assumption, by assumption, by assumption, by assumption⟩
  · rintro ⟨rfl, rfl, h0, h1, h2, h3⟩
    unfold SetupWorkDir
    dsimp only
    rw [h0]
    dsimp only
    rw [h1]
    dsimp only
    rw [h2]
    dsimp only
    rw [h3]
    simp
  · unfold SetupWorkDir
    dsimp only
    split
    · rename_i h0
      rw [h0]; simp
    · rename_i h0
      rw [h0]
      split
      · rename_i h1
        rw [h1]; simp
      · rename_i h1
        rw [h1]
        split
        · rename_i h2
          rw [h2]; simp
        · rename_i h2
          rw [h2]
          split
          · rename_i h3
            rw [h3]; simp
          · rename_i h3
            rw [h3]; simp

/-- C9: `TagRepo` performs exactly one operation, the command
`git tag <manifest.Version>` run in `repoPath`, and returns the error of that
command as it is: `nil` exactly when the command succeeds.  There is no
second attempt, and no manifest is written (the function has the manifest by
value and hands none back). -/
theorem TagRepo_single_command (w : World) (t : List Op) (manifest : Manifest)
    (repoPath : Str) :
    TagRepo w t manifest repoPath =
      ((w.exec t (Op.Run "git".toList ["tag".toList, manifest.Version] repoPath)).err,
       t ++ [Op.Run "git".toList ["tag".toList, manifest.Version] repoPath]) ∧
    ((TagRepo w t manifest repoPath).1 = none ↔
      (w.exec t (Op.Run "git".toList ["tag".toList, manifest.Version] repoPath)).err = none) ∧
    (TagRepo w t manifest repoPath).2.length = t.length + 1 := by
  simp [TagRepo, tagOp]

/-! ## `StandardizeManifest` -/

theorem runErr_cons_succ (w : World) (t : List Op) (op : Op) (ops : List Op) (i : Nat) :
    runErr w t (op :: ops) (i + 1) = runErr w (t ++ [op]) ops i := by
  simp [runErr]

theorem runOut_cons_succ (w : World) (t : List Op) (op : Op) (ops : List Op) (i : Nat) :
    runOut w t (op :: ops) (i + 1) = runOut w (t ++ [op]) ops i := by
  simp [runOut]

theorem runErr_cons_zero (w : World) (t : List Op) (op : Op) (ops : List Op) :
    runErr w t (op :: ops) 0 = (w.exec t op).err := by
  simp [runErr]

theorem runOut_cons_zero (w : World) (t : List Op) (op : Op) (ops : List Op) :
    runOut w t (op :: ops) 0 = (w.exec t op).out := by
  simp [runOut]

theorem runErr_of_length_le (w : World) (t : List Op) (ops : List Op) (i : Nat)
    (h : ops.length ≤ i) : runErr w t ops i = none := by
  simp [runErr, List.getElem?_eq_none h]

/-- The loop of `StandardizeManifest` when the first `k` commands succeed and
the `k`-th, if there is one, fails: the first `k` entries are rewritten, the
others are kept, the result is the answer of the `k`-th command, and `k + 1`
commands were run. -/
theorem standardizeLoop_spec (w : World) (V D : Str) :
    ∀ (todo done : List Dependency) (t : List Op) (k : Nat),
      k ≤ todo.length →
      (∀ i, i < k → runErr w t (revParseOps ⟨V, D, todo⟩) i = none) →
      (k < todo.length → runErr w t (revParseOps ⟨V, D, todo⟩) k ≠ none) →
      ∃ S : List Dependency, S.length = k ∧
        (∀ i d, i < k → todo[i]? = some d →
          S[i]? = some ⟨d.Repo, [], TrimSpace (runOut w t (revParseOps ⟨V, D, todo⟩) i)⟩) ∧
        standardizeLoop w todo.length done.length ⟨V, D, done ++ todo⟩ t =
          (runErr w t (revParseOps ⟨V, D, todo⟩) k, ⟨V, D, done ++ S ++ todo.drop k⟩,
            t ++ (revParseOps ⟨V, D, todo⟩).take (k + 1)) := by
  intro todo
  induction todo with
  | nil =>
    intro done t k hk _ _
    have : k = 0 := by simpa using hk
    subst this
    exact ⟨[], rfl, by simp, by simp [standardizeLoop, revParseOps, runErr]⟩
  | cons d rest ih =>
    intro done t k hk hok hfail
    have hget : (done ++ d :: rest)[done.length]? = some d := by
      rw [List.getElem?_append_right (le_refl _)]; simp
    have hops : revParseOps ⟨V, D, d :: rest⟩ =
        revParseOp ⟨V, D, done ++ d :: rest⟩ d.Repo :: revParseOps ⟨V, D, rest⟩ := rfl
    cases k with
    | zero =>
      have hf := hfail (by simp)
      rw [hops, runErr_cons_zero] at hf
      obtain ⟨e, he⟩ := Option.ne_none_iff_exists'.mp hf
      refine ⟨[], rfl, by simp, ?_⟩
      rw [hops, runErr_cons_zero]
      simp only [List.length_cons, standardizeLoop, hget, he, List.append_nil, List.drop_zero,
        List.take_succ_cons, List.take_zero, zero_add]
    | succ k =>
      have h0 := hok 0 (by omega)
      rw [hops, runErr_cons_zero] at h0
      have hk1 : k ≤ rest.length := by simpa using hk
      obtain ⟨S, hlen, hS, hloop⟩ := ih
        (done ++ [⟨d.Repo, [], TrimSpace (w.exec t (revParseOp ⟨V, D, done ++ d :: rest⟩ d.Repo)).out⟩])
        (t ++ [revParseOp ⟨V, D, done ++ d :: rest⟩ d.Repo]) k hk1
        (by
          intro i hi
          have := hok (i + 1) (by omega)
          rwa [hops, runErr_cons_succ] at this)
        (by
          intro hlt
          have := hfail (by simpa using hlt)
          rwa [hops, runErr_cons_succ] at this)
      refine ⟨⟨d.Repo, [], TrimSpace (w.exec t (revParseOp ⟨V, D, done ++ d :: rest⟩ d.Repo)).out⟩
        :: S, by simp [hlen], ?_, ?_⟩
      · intro i x hi hx
        cases i with
        | zero =>
          simp only [List.getElem?_cons_zero, Option.some.injEq] at hx
          subst hx
          rw [hops, runOut_cons_zero]
          simp
        | succ i =>
          rw [hops, runOut_cons_succ]
          simpa using hS i x (by omega) (by simpa using hx)
      · rw [hops, runErr_cons_succ]
        simp only [List.length_cons, standardizeLoop, hget, h0]
        have hset : (done ++ d :: rest).set done.length
            ⟨d.Repo, [], TrimSpace (w.exec t (revParseOp ⟨V, D, done ++ d :: rest⟩ d.Repo)).out⟩ =
            (done ++ [⟨d.Repo, [], TrimSpace
              (w.exec t (revParseOp ⟨V, D, done ++ d :: rest⟩ d.Repo)).out⟩]) ++ rest := by
          simp
        have hl : (done ++ [(⟨d.Repo, [], TrimSpace
            (w.exec t (revParseOp ⟨V, D, done ++ d :: rest⟩ d.Repo)).out⟩ : Dependency)]).length =
            done.length + 1 := by simp
        rw [hl] at hloop
        rw [hset, hloop]
        simp

theorem runErr_revParseOps (w : World) (t : List Op) (m : Manifest) (i : Nat) (d : Dependency)
    (h : m.Dependencies[i]? = some d) :
    runErr w t (revParseOps m) i =
      (w.exec (t ++ (revParseOps m).take i) (revParseOp m d.Repo)).err := by
  simp [runErr, revParseOps, h]

theorem runOut_revParseOps (w : World) (t : List Op) (m : Manifest) (i : Nat) (d : Dependency)
    (h : m.Dependencies[i]? = some d) :
    runOut w t (revParseOps m) i =
      (w.exec (t ++ (revParseOps m).take i) (revParseOp m d.Repo)).out := by
  simp [runOut, revParseOps, h]

/-- The whole of `StandardizeManifest` when the first `k` commands succeed and
the `k`-th, if any, fails. -/
theorem StandardizeManifest_spec (w : World) (t : List Op) (m : Manifest) (k : Nat)
    (hk : k ≤ m.Dependencies.length)
    (hok : ∀ i, i < k → runErr w t (revParseOps m) i = none)
    (hfail : k < m.Dependencies.length → runErr w t (revParseOps m) k ≠ none) :
    ∃ m1, StandardizeManifest w t m =
        (runErr w t (revParseOps m) k, m1, t ++ (revParseOps m).take (k + 1)) ∧
      m1.Version = m.Version ∧ m1.Directory = m.Directory ∧
      m1.Dependencies.length = m.Dependencies.length ∧
      (∀ i d, i < k → m.Dependencies[i]? = some d → m1.Dependencies[i]? =
        some ⟨d.Repo, [], TrimSpace (runOut w t (revParseOps m) i)⟩) ∧
      (∀ i, k ≤ i → m1.Dependencies[i]? = m.Dependencies[i]?) := by
  obtain ⟨V, D, deps⟩ := m
  obtain ⟨S, hlen, hS, hloop⟩ := standardizeLoop_spec w V D deps [] t k hk hok hfail
  refine ⟨⟨V, D, S ++ deps.drop k⟩, ?_, rfl, rfl, ?_, ?_, ?_⟩
  · simpa [StandardizeManifest] using hloop
  · simp only [List.length_append, List.length_drop, hlen]
    simp only at hk
    omega
  · intro i d hi hd
    simp only
    rw [List.getElem?_append_left (by omega)]
    exact hS i d hi hd
  · intro i hi
    simp only
    rw [List.getElem?_append_right (by omega), List.getElem?_drop, hlen]
    congr 1
    omega

/-- When `StandardizeManifest` returns `nil`, every command succeeded. -/
theorem StandardizeManifest_nil_all_ok (w : World) (t : List Op) (m : Manifest)
    (h : (StandardizeManifest w t m).1 = none) (i : Nat) :
    runErr w t (revParseOps m) i = none := by
  by_contra hne
  have hex : ∃ j, runErr w t (revParseOps m) j ≠ none := ⟨i, hne⟩
  classical
  have hk := Nat.find_spec hex
  have hmin : ∀ j, j < Nat.find hex → runErr w t (revParseOps m) j = none := by
    intro j hj
    by_contra hj1
    exact Nat.find_min hex hj hj1
  have hlt : Nat.find hex < m.Dependencies.length := by
    by_contra hge
    exact hk (runErr_of_length_le w t _ _ (by simpa [revParseOps] using hge))
  obtain ⟨m1, heq, -⟩ := StandardizeManifest_spec w t m (Nat.find hex) (le_of_lt hlt) hmin
    (fun _ => hk)
  rw [heq] at h
  exact hk h

theorem dropWhile_ne_nil_of_mem (p : Char → Bool) (s : Str) (c : Char) (hc : c ∈ s)
    (hp : p c = false) : s.dropWhile p ≠ [] := by
  intro h
  have := List.dropWhile_eq_nil_iff.mp h c hc
  simp [hp] at this

/-- A string with a character that is not white space does not trim to the
empty string. -/
theorem TrimSpace_ne_nil (s : Str) (h : ∃ c ∈ s, isSpace c = false) : TrimSpace s ≠ [] := by
  obtain ⟨c, hc, hsp⟩ := h
  have h1 : s.dropWhile isSpace ≠ [] := dropWhile_ne_nil_of_mem isSpace s c hc hsp
  have h2 : isSpace ((s.dropWhile isSpace).head h1) = false := by
    simpa using List.head_dropWhile_not isSpace s h1
  unfold TrimSpace
  intro h3
  have h4 : (s.dropWhile isSpace).reverse.dropWhile isSpace = [] := by simpa using h3
  exact dropWhile_ne_nil_of_mem isSpace _ _
    (List.mem_reverse.mpr (List.head_mem h1)) h2 h4

/-- A string that does not trim to the empty string has a character that is
not white space. -/
theorem exists_not_space_of_TrimSpace_ne_nil (s : Str) (h : TrimSpace s ≠ []) :
    ∃ c ∈ s, isSpace c = false := by
  by_contra hno
  have hall : ∀ c ∈ s, isSpace c = true := by
    intro c hc
    by_contra hc1
    exact hno ⟨c, hc, by simpa using hc1⟩
  have hnil : s.dropWhile isSpace = [] := List.dropWhile_eq_nil_iff.mpr hall
  apply h
  simp [TrimSpace, hnil]

theorem lt_length_of_getElem_some {α : Type} {l : List α} {i : Nat} {a : α}
    (h : l[i]? = some a) : i < l.length := by
  by_contra hge
  rw [List.getElem?_eq_none (by omega)] at h
  cases h

/-- C1: when `git rev-parse HEAD` succeeds for every dependency,
`StandardizeManifest` returns `nil`, has run exactly one command per dependency
in manifest order, and leaves the manifest with the same `Version`, the same
`Directory`, the same number of dependencies, and at every index the same
`Repo`, an empty `Branch`, and as `Sha` the trimmed standard output of the
command run with working directory `RepoDir(d.Repo)`. -/
theorem StandardizeManifest_all_resolved (w : World) (t : List Op) (m : Manifest)
    (hok : ∀ i d, m.Dependencies[i]? = some d →
      (w.exec (t ++ (revParseOps m).take i)
        (Op.Run "git".toList ["rev-parse".toList, "HEAD".toList] (m.RepoDir d.Repo))).err = none) :
    ∃ m1, StandardizeManifest w t m = (none, m1, t ++ revParseOps m) ∧
      m1.Version = m.Version ∧ m1.Directory = m.Directory ∧
      m1.Dependencies.length = m.Dependencies.length ∧
      ∀ i d, m.Dependencies[i]? = some d →
        m1.Dependencies[i]? = some (Dependency.mk d.Repo [] (TrimSpace
          (w.exec (t ++ (revParseOps m).take i)
            (Op.Run "git".toList ["rev-parse".toList, "HEAD".toList] (m.RepoDir d.Repo))).out)) := by
  have hall : ∀ i, i < m.Dependencies.length → runErr w t (revParseOps m) i = none := by
    intro i hi
    obtain ⟨d, hd⟩ : ∃ d, m.Dependencies[i]? = some d := ⟨_, List.getElem?_eq_getElem hi⟩
    rw [runErr_revParseOps w t m i d hd]
    exact hok i d hd
  obtain ⟨m1, heq, hV, hD, hlen, hpre, -⟩ :=
    StandardizeManifest_spec w t m m.Dependencies.length (le_refl _) hall (fun h => absurd h (lt_irrefl _))
  refine ⟨m1, ?_, hV, hD, hlen, ?_⟩
  · rw [heq, runErr_of_length_le w t _ _ (by simp [revParseOps]),
      List.take_of_length_le (by simp [revParseOps])]
  · intro i d hd
    have hi : i < m.Dependencies.length := lt_length_of_getElem_some hd
    rw [hpre i d hi hd, runOut_revParseOps w t m i d hd]
    rfl

/-- Witness for C1: in a world where every command succeeds, standardizing the
two-dependency manifest returns `nil`. -/
theorem StandardizeManifest_all_resolved_witness :
    (StandardizeManifest okWorld [] manifestInWork).1 = none := by
  obtain ⟨m1, h, -⟩ := StandardizeManifest_all_resolved okWorld [] manifestInWork
    (fun _ _ _ => rfl)
  rw [h]

/-- C2: when the command of index `k` is the first to fail, with error `e`,
`StandardizeManifest` returns exactly `e`, has run the commands of the indices
up to `k` and no other, has rewritten every dependency below `k` (empty
`Branch`, `Sha` the trimmed output of its command) and left every dependency
at index `k` or above as it was. -/
theorem StandardizeManifest_first_failure (w : World) (t : List Op) (m : Manifest) (k : Nat)
    (dk : Dependency) (e : GoError)
    (hk : m.Dependencies[k]? = some dk)
    (hok : ∀ i d, i < k → m.Dependencies[i]? = some d →
      (w.exec (t ++ (revParseOps m).take i)
        (Op.Run "git".toList ["rev-parse".toList, "HEAD".toList] (m.RepoDir d.Repo))).err = none)
    (hfail : (w.exec (t ++ (revParseOps m).take k)
        (Op.Run "git".toList ["rev-parse".toList, "HEAD".toList] (m.RepoDir dk.Repo))).err =
          some e) :
    ∃ m1, StandardizeManifest w t m = (some e, m1, t ++ (revParseOps m).take (k + 1)) ∧
      m1.Version = m.Version ∧ m1.Directory = m.Directory ∧
      m1.Dependencies.length = m.Dependencies.length ∧
      (∀ i d, i < k → m.Dependencies[i]? = some d →
        m1.Dependencies[i]? = some (Dependency.mk d.Repo [] (TrimSpace
          (w.exec (t ++ (revParseOps m).take i)
            (Op.Run "git".toList ["rev-parse".toList, "HEAD".toList] (m.RepoDir d.Repo))).out))) ∧
      (∀ i, k ≤ i → m1.Dependencies[i]? = m.Dependencies[i]?) := by
  have hklt : k < m.Dependencies.length := lt_length_of_getElem_some hk
  have hall : ∀ i, i < k → runErr w t (revParseOps m) i = none := by
    intro i hi
    obtain ⟨d, hd⟩ : ∃ d, m.Dependencies[i]? = some d :=
      ⟨_, List.getElem?_eq_getElem (by omega)⟩
    rw [runErr_revParseOps w t m i d hd]
    exact hok i d hi hd
  have hf : runErr w t (revParseOps m) k = some e := by
    rw [runErr_revParseOps w t m k dk hk]
    exact hfail
  obtain ⟨m1, heq, hV, hD, hlen, hpre, hpost⟩ :=
    StandardizeManifest_spec w t m k (le_of_lt hklt) hall (fun _ => by simp [hf])
  refine ⟨m1, by rw [heq, hf], hV, hD, hlen, ?_, hpost⟩
  intro i d hi hd
  rw [hpre i d hi hd, runOut_revParseOps w t m i d hd]
  rfl

/-- Witness for C2: when the command fails for `b`, the second dependency, the
call returns that error and has run two commands. -/
theorem StandardizeManifest_first_failure_witness :
    (StandardizeManifest
      (failingWorld (fun op => decide (op = revParseOp manifestInWork "b".toList))) []
      manifestInWork).1 = some ⟨"exit status 1".toList⟩ := by
  obtain ⟨m1, h, -⟩ := StandardizeManifest_first_failure
    (failingWorld (fun op => decide (op = revParseOp manifestInWork "b".toList))) []
    manifestInWork 1 ⟨"b".toList, "main".toList, []⟩ ⟨"exit status 1".toList⟩ rfl
    (fun i d hi hd => by
      have hi0 : i = 0 := by omega
      subst hi0
      have : d = ⟨"a".toList, "main".toList, []⟩ := by
        simpa [manifestInWork, manifestAB] using hd.symm
      subst this
      decide)
    (by decide)
  rw [h]

/-- C7, as the code has it: a command that succeeds printing only white space
leaves the dependency with an empty `Sha` (and an empty `Branch`) although
`StandardizeManifest` returns `nil`. -/
theorem StandardizeManifest_blank_output_empty_sha :
    (StandardizeManifest blankWorld [] manifestInWork).1 = none ∧
    ∃ d ∈ (StandardizeManifest blankWorld [] manifestInWork).2.1.Dependencies,
      d.Sha = [] ∧ d.Branch = [] := by
  decide

/-- C7, amended: after `StandardizeManifest` returns `nil`, the manifest has
the same number of dependencies and, at every index, the dependency has the
same `Repo`, an empty `Branch`, and as `Sha` the trimmed standard output of its
command; that `Sha` is non-empty exactly when the output of that command
contains a character that is not white space. -/
theorem StandardizeManifest_sha_nonempty (w : World) (t : List Op) (m : Manifest)
    (hret : (StandardizeManifest w t m).1 = none) :
    (StandardizeManifest w t m).2.1.Dependencies.length = m.Dependencies.length ∧
    ∀ i d, m.Dependencies[i]? = some d →
      (StandardizeManifest w t m).2.1.Dependencies[i]? =
        some (Dependency.mk d.Repo [] (TrimSpace
          (w.exec (t ++ (revParseOps m).take i)
            (Op.Run "git".toList ["rev-parse".toList, "HEAD".toList]
              (m.RepoDir d.Repo))).out)) ∧
      (TrimSpace
          (w.exec (t ++ (revParseOps m).take i)
            (Op.Run "git".toList ["rev-parse".toList, "HEAD".toList]
              (m.RepoDir d.Repo))).out ≠ [] ↔
        ∃ c ∈ (w.exec (t ++ (revParseOps m).take i)
            (Op.Run "git".toList ["rev-parse".toList, "HEAD".toList]
              (m.RepoDir d.Repo))).out,
          isSpace c = false) := by
  have hall := StandardizeManifest_nil_all_ok w t m hret
  obtain ⟨m1, heq, -, -, hlen, hpre, -⟩ :=
    StandardizeManifest_spec w t m m.Dependencies.length (le_refl _) (fun i _ => hall i)
      (fun h => absurd h (lt_irrefl _))
  rw [heq]
  refine ⟨hlen, fun i d hd => ⟨?_, ?_⟩⟩
  · have hi : i < m.Dependencies.length := lt_length_of_getElem_some hd
    show m1.Dependencies[i]? = _
    rw [hpre i d hi hd, runOut_revParseOps w t m i d hd]
    rfl
  · exact ⟨exists_not_space_of_TrimSpace_ne_nil _, TrimSpace_ne_nil _⟩

/-- Witness for C7, amended: with commit identifiers printed, the call returns
`nil` and the dependency `a`, at index 0, ends with an empty `Branch` and the
trimmed output, which is not empty, as `Sha`. -/
theorem StandardizeManifest_sha_nonempty_witness :
    (StandardizeManifest okWorld [] manifestInWork).1 = none ∧
    (StandardizeManifest okWorld [] manifestInWork).2.1.Dependencies[0]? =
      some (Dependency.mk "a".toList []
        (TrimSpace "0123456789abcdef0123456789abcdef01234567\n".toList)) ∧
    TrimSpace "0123456789abcdef0123456789abcdef01234567\n".toList ≠ [] :=
  ⟨by decide,
    ((StandardizeManifest_sha_nonempty okWorld [] manifestInWork (by decide)).2 0
      (Dependency.mk "a".toList "main".toList []) rfl).1,
    by decide⟩

/-! ## `Sources` -/

theorem sourcesPlan_cons (m : Manifest) (d : Dependency) (rest : List Dependency) :
    sourcesPlan m (d :: rest) =
      stepOp m .fetch d :: stepOp m .copy d :: stepOp m .tag d :: sourcesPlan m rest := by
  simp [sourcesPlan, depOps]

theorem sourcesPlan_length (m : Manifest) (deps : List Dependency) :
    (sourcesPlan m deps).length = 3 * deps.length := by
  induction deps with
  | nil => rfl
  | cons d rest ih => rw [sourcesPlan_cons]; simp [ih]; omega

/-- The loop of `Sources` when the first `n` planned operations succeed and the
`n`-th, if there is one, fails: the error is the one of step `n % 3` of the
dependency of index `n / 3`, and exactly `n + 1` operations were performed. -/
theorem sourcesLoop_spec (w : World) (m : Manifest) :
    ∀ (deps : List Dependency) (t : List Op) (n : Nat),
      n ≤ (sourcesPlan m deps).length →
      (∀ i, i < n → runErr w t (sourcesPlan m deps) i = none) →
      (n < (sourcesPlan m deps).length → runErr w t (sourcesPlan m deps) n ≠ none) →
      sourcesLoop w m deps t =
        ((match deps[n / 3]?, runErr w t (sourcesPlan m deps) n with
          | some d, some e => some (stepError (stepOfIndex (n % 3)) d e)
          | _, _ => none),
         t ++ (sourcesPlan m deps).take (n + 1)) := by
  intro deps
  induction deps with
  | nil =>
    intro t n hn _ _
    simp [sourcesLoop, sourcesPlan]
  | cons d rest ih =>
    intro t n hn hok hfail
    rw [sourcesPlan_cons] at hn hok hfail ⊢
    match n with
    | 0 =>
      have hf := hfail (by simp)
      rw [runErr_cons_zero] at hf ⊢
      obtain ⟨e, he⟩ := Option.ne_none_iff_exists'.mp hf
      have he1 : (w.exec t (Op.Clone d (Join [m.SourceDir, d.Repo]))).err = some e := he
      simp only [sourcesLoop, he1, he]
      simp [stepOfIndex, stepError, stepOp]
    | 1 =>
      have h0 := hok 0 (by omega)
      have hf := hfail (by simp)
      rw [runErr_cons_zero] at h0
      rw [runErr_cons_succ, runErr_cons_zero] at hf ⊢
      obtain ⟨e, he⟩ := Option.ne_none_iff_exists'.mp hf
      have h01 : (w.exec t (Op.Clone d (Join [m.SourceDir, d.Repo]))).err = none := h0
      have he1 : (w.exec (t ++ [Op.Clone d (Join [m.SourceDir, d.Repo])])
        (Op.CopyDir (Join [m.SourceDir, d.Repo]) (m.RepoDir d.Repo))).err = some e := he
      simp only [sourcesLoop, h01, he1, he]
      simp [stepOfIndex, stepError, stepOp]
    | 2 =>
      have h0 := hok 0 (by omega)
      have h1 := hok 1 (by omega)
      have hf := hfail (by simp)
      rw [runErr_cons_zero] at h0
      rw [runErr_cons_succ, runErr_cons_zero] at h1
      rw [runErr_cons_succ, runErr_cons_succ, runErr_cons_zero] at hf ⊢
      obtain ⟨e, he⟩ := Option.ne_none_iff_exists'.mp hf
      have h01 : (w.exec t (Op.Clone d (Join [m.SourceDir, d.Repo]))).err = none := h0
      have h11 : (w.exec (t ++ [Op.Clone d (Join [m.SourceDir, d.Repo])])
        (Op.CopyDir (Join [m.SourceDir, d.Repo]) (m.RepoDir d.Repo))).err = none := h1
      have he1 : (w.exec (t ++ [Op.Clone d (Join [m.SourceDir, d.Repo])] ++
          [Op.CopyDir (Join [m.SourceDir, d.Repo]) (m.RepoDir d.Repo)])
        (tagOp m (m.RepoDir d.Repo))).err = some e := he
      simp only [sourcesLoop, h01, h11, TagRepo, he1, he]
      simp [stepOfIndex, stepError, stepOp, tagOp]
    | n + 3 =>
      have h0 := hok 0 (by omega)
      have h1 := hok 1 (by omega)
      have h2 := hok 2 (by omega)
      rw [runErr_cons_zero] at h0
      rw [runErr_cons_succ, runErr_cons_zero] at h1
      rw [runErr_cons_succ, runErr_cons_succ, runErr_cons_zero] at h2
      have h01 : (w.exec t (Op.Clone d (Join [m.SourceDir, d.Repo]))).err = none := h0
      have h11 : (w.exec (t ++ [Op.Clone d (Join [m.SourceDir, d.Repo])])
        (Op.CopyDir (Join [m.SourceDir, d.Repo]) (m.RepoDir d.Repo))).err = none := h1
      have h21 : (w.exec (t ++ [Op.Clone d (Join [m.SourceDir, d.Repo])] ++
          [Op.CopyDir (Join [m.SourceDir, d.Repo]) (m.RepoDir d.Repo)])
        (tagOp m (m.RepoDir d.Repo))).err = none := h2
      have hrec := ih (t ++ [stepOp m .fetch d] ++ [stepOp m .copy d] ++ [stepOp m .tag d]) n
        (by simpa using hn)
        (by
          intro i hi
          have := hok (i + 3) (by omega)
          rwa [runErr_cons_succ, runErr_cons_succ, runErr_cons_succ] at this)
        (by
          intro hlt
          have := hfail (by simpa using hlt)
          rwa [runErr_cons_succ, runErr_cons_succ, runErr_cons_succ] at this)
      rw [runErr_cons_succ, runErr_cons_succ, runErr_cons_succ]
      simp only [sourcesLoop, h01, h11, TagRepo, h21]
      have hdiv : (n + 3) / 3 = n / 3 + 1 := by omega
      have hmod : (n + 3) % 3 = n % 3 := by omega
      rw [hdiv, hmod, List.getElem?_cons_succ]
      have hrec1 : sourcesLoop w m rest
          (t ++ [Op.Clone d (Join [m.SourceDir, d.Repo])] ++
            [Op.CopyDir (Join [m.SourceDir, d.Repo]) (m.RepoDir d.Repo)] ++
            [tagOp m (m.RepoDir d.Repo)]) = _ := hrec
      rw [hrec1]
      simp [stepOp]

theorem Sources_of_setup (w : World) (t : List Op) (m : Manifest) (root : Str) (t1 : List Op)
    (h : SetupWorkDir w t = (some root, t1)) :
    Sources w t m =
      ⟨.returned (sourcesLoop w (m.withDirectory root) m.Dependencies t1).1,
        m.withDirectory root, m,
        (sourcesLoop w (m.withDirectory root) m.Dependencies t1).2⟩ := by
  simp [Sources, h, Manifest.withDirectory]

theorem sourcesPlan_take (m : Manifest) :
    ∀ (deps : List Dependency) (k j : Nat) (dk : Dependency), deps[k]? = some dk → j ≤ 3 →
      (sourcesPlan m deps).take (3 * k + j) =
        sourcesPlan m (deps.take k) ++ (depOps m dk).take j := by
  intro deps
  induction deps with
  | nil => intro k j dk h; simp at h
  | cons d rest ih =>
    intro k j dk h hj
    cases k with
    | zero =>
      simp only [List.getElem?_cons_zero, Option.some.injEq] at h
      subst h
      rw [sourcesPlan_cons]
      have : j = 0 ∨ j = 1 ∨ j = 2 ∨ j = 3 := by omega
      rcases this with rfl | rfl | rfl | rfl <;> simp [sourcesPlan, depOps]
    | succ k =>
      rw [List.getElem?_cons_succ] at h
      have h3 : 3 * (k + 1) + j = (3 * k + j) + 1 + 1 + 1 := by omega
      rw [sourcesPlan_cons, h3, List.take_succ_cons, List.take_succ_cons, List.take_succ_cons,
        ih k j dk h hj, List.take_succ_cons, sourcesPlan_cons]
      simp

theorem sourcesPlan_getElem (m : Manifest) :
    ∀ (deps : List Dependency) (k : Nat) (step : Step) (dk : Dependency), deps[k]? = some dk →
      (sourcesPlan m deps)[3 * k + step.index]? = some (stepOp m step dk) := by
  intro deps
  induction deps with
  | nil => intro k step dk h; simp at h
  | cons d rest ih =>
    intro k step dk h
    cases k with
    | zero =>
      simp only [List.getElem?_cons_zero, Option.some.injEq] at h
      subst h
      rw [sourcesPlan_cons]
      cases step <;> simp [Step.index]
    | succ k =>
      rw [List.getElem?_cons_succ] at h
      have h3 : 3 * (k + 1) + step.index = (3 * k + step.index) + 1 + 1 + 1 := by omega
      rw [sourcesPlan_cons, h3, List.getElem?_cons_succ, List.getElem?_cons_succ,
        List.getElem?_cons_succ]
      exact ih k step dk h

theorem stepOfIndex_index (step : Step) : stepOfIndex step.index = step := by
  cases step <;> rfl

theorem Step.index_lt (step : Step) : step.index < 3 := by
  cases step <;> simp [Step.index]

/-- An error of the loop of `Sources` is the wrapped error of the operation
performed last, which is a step of a dependency of the list. -/
theorem sourcesLoop_error (w : World) (m : Manifest) :
    ∀ (deps : List Dependency) (t : List Op) (E : GoError),
      (sourcesLoop w m deps t).1 = some E →
      ∃ d ∈ deps, ∃ step e tpre,
        (sourcesLoop w m deps t).2 = tpre ++ [stepOp m step d] ∧
        (w.exec tpre (stepOp m step d)).err = some e ∧ E = stepError step d e := by
  intro deps
  induction deps with
  | nil => intro t E h; simp [sourcesLoop] at h
  | cons d rest ih =>
    intro t E h
    rcases h0 : (w.exec t (Op.Clone d (Join [m.SourceDir, d.Repo]))).err with _ | e
    · rcases h1 : (w.exec (t ++ [Op.Clone d (Join [m.SourceDir, d.Repo])])
          (Op.CopyDir (Join [m.SourceDir, d.Repo]) (m.RepoDir d.Repo))).err with _ | e
      · rcases h2 : (w.exec (t ++ [Op.Clone d (Join [m.SourceDir, d.Repo])] ++
            [Op.CopyDir (Join [m.SourceDir, d.Repo]) (m.RepoDir d.Repo)])
            (tagOp m (m.RepoDir d.Repo))).err with _ | e
        · simp only [sourcesLoop, TagRepo, h0, h1, h2] at h ⊢
          obtain ⟨d1, hd1, step, e, tpre, h3, h4, h5⟩ := ih _ E h
          exact ⟨d1, List.mem_cons_of_mem _ hd1, step, e, tpre, h3, h4, h5⟩
        · simp only [sourcesLoop, TagRepo, h0, h1, h2, Option.some.injEq] at h ⊢
          exact ⟨d, List.mem_cons_self _ _, .tag, e, _, rfl, h2, h.symm⟩
      · simp only [sourcesLoop, h0, h1, Option.some.injEq] at h ⊢
        exact ⟨d, List.mem_cons_self _ _, .copy, e, _, rfl, h1, h.symm⟩
    · simp only [sourcesLoop, h0, Option.some.injEq] at h ⊢
      exact ⟨d, List.mem_cons_self _ _, .fetch, e, t, rfl, h0, h.symm⟩

theorem leadingText_unique (s1 s2 : Step) (x : Str)
    (h1 : leadingText s1 <+: x) (h2 : leadingText s2 <+: x) : s1 = s2 := by
  obtain ⟨r1, rfl⟩ := h1
  obtain ⟨r2, h2⟩ := h2
  cases s1 <;> cases s2 <;> first | rfl | (exfalso; simp [leadingText] at h2)

theorem stepError_msg (step : Step) (d : Dependency) (e : GoError) :
    leadingText step <+: (stepError step d e).msg ∧ d.Repo <:+: (stepError step d e).msg ∧
      e.msg <:+: (stepError step d e).msg := by
  cases step
  · refine ⟨⟨fmtDependency d ++ ": ".toList ++ e.msg, ?_⟩,
      ⟨leadingText .fetch ++ "\x7bRepo:".toList,
        " Branch:".toList ++ d.Branch ++ " Sha:".toList ++ d.Sha ++ "\x7d".toList ++
          ": ".toList ++ e.msg, ?_⟩,
      ⟨leadingText .fetch ++ fmtDependency d ++ ": ".toList, [], ?_⟩⟩ <;>
    simp only [stepError, errResolve, fmtDependency, List.append_assoc, List.append_nil]
  · refine ⟨⟨d.Repo ++ " to working directory: ".toList ++ e.msg, ?_⟩,
      ⟨leadingText .copy, " to working directory: ".toList ++ e.msg, ?_⟩,
      ⟨leadingText .copy ++ d.Repo ++ " to working directory: ".toList, [], ?_⟩⟩ <;>
    simp only [stepError, errCopy, List.append_assoc, List.append_nil]
  · refine ⟨⟨d.Repo ++ ": ".toList ++ e.msg, ?_⟩,
      ⟨leadingText .tag, ": ".toList ++ e.msg, ?_⟩,
      ⟨leadingText .tag ++ d.Repo ++ ": ".toList, [], ?_⟩⟩ <;>
    simp only [stepError, errTag, List.append_assoc, List.append_nil]

/-- C3, as the code has it: `Sources` sets `Directory` on its own copy of the
manifest.  After a successful `Sources` on a manifest with an empty
`Directory`, the callee's copy has the root `/tmp/istio-release1` and the tag
was applied in `/tmp/istio-release1/work/a`, yet the caller's manifest still
has the empty `Directory`, and `StandardizeManifest` on it runs
`git rev-parse HEAD` in the relative path `work/a`. -/
theorem Sources_directory_not_set_for_caller :
    (Sources okWorld [] manifestAB).outcome = .returned none ∧
    (Sources okWorld [] manifestAB).own.Directory = "/tmp/istio-release1".toList ∧
    Op.Run "git".toList ["tag".toList, "v1.2.3".toList] "/tmp/istio-release1/work/a".toList ∈
      (Sources okWorld [] manifestAB).trace ∧
    (Sources okWorld [] manifestAB).caller.Directory = [] ∧
    (StandardizeManifest okWorld (Sources okWorld [] manifestAB).trace
      (Sources okWorld [] manifestAB).caller).2.2 =
      (Sources okWorld [] manifestAB).trace ++
        [Op.Run "git".toList ["rev-parse".toList, "HEAD".toList] "work/a".toList,
         Op.Run "git".toList ["rev-parse".toList, "HEAD".toList] "work/b".toList] := by
  decide

/-- C4: when the workspace root was set up and the first failing operation is
step `step` of the dependency of index `k`, with error `e`, `Sources` returns
the (non-nil) error of that step, and the operations it performed after the
setup are exactly fetch, copy, tag for each dependency before `k`, in manifest
order, followed by the steps of dependency `k` up to and including the
failing one. -/
theorem Sources_first_failure (w : World) (t : List Op) (m : Manifest) (root : Str)
    (t1 : List Op) (k : Nat) (dk : Dependency) (step : Step) (e : GoError)
    (hsetup : SetupWorkDir w t = (some root, t1))
    (hk : m.Dependencies[k]? = some dk)
    (hok : ∀ i, i < 3 * k + step.index →
      runErr w t1 (sourcesPlan (m.withDirectory root) m.Dependencies) i = none)
    (hfail : (w.exec
      (t1 ++ sourcesPlan (m.withDirectory root) (m.Dependencies.take k) ++
        (depOps (m.withDirectory root) dk).take step.index)
      (stepOp (m.withDirectory root) step dk)).err = some e) :
    (Sources w t m).outcome = .returned (some (stepError step dk e)) ∧
    (Sources w t m).trace =
      t1 ++ sourcesPlan (m.withDirectory root) (m.Dependencies.take k) ++
        (depOps (m.withDirectory root) dk).take (step.index + 1) := by
  have hidx := step.index_lt
  have hklt : k < m.Dependencies.length := lt_length_of_getElem_some hk
  have hrun : runErr w t1 (sourcesPlan (m.withDirectory root) m.Dependencies)
      (3 * k + step.index) = some e := by
    unfold runErr
    rw [sourcesPlan_getElem _ _ k step dk hk, sourcesPlan_take _ _ k _ dk hk (by omega),
      ← List.append_assoc]
    exact hfail
  have hspec := sourcesLoop_spec w (m.withDirectory root) m.Dependencies t1
    (3 * k + step.index) (by rw [sourcesPlan_length]; omega) hok (fun _ => by simp [hrun])
  have hdiv : (3 * k + step.index) / 3 = k := by omega
  have hmod : (3 * k + step.index) % 3 = step.index := by omega
  rw [hdiv, hmod, hk, hrun, stepOfIndex_index] at hspec
  rw [Sources_of_setup w t m root t1 hsetup, hspec]
  refine ⟨rfl, ?_⟩
  show t1 ++ List.take (3 * k + step.index + 1) _ = _
  rw [Nat.add_assoc, sourcesPlan_take _ _ k _ dk hk (by omega), ← List.append_assoc]

/-- Witness for C4: the fetch of `b`, the second dependency, fails; `Sources`
returns the error of that fetch. -/
theorem Sources_first_failure_witness :
    (Sources (failingWorld (fun op => decide (op =
        stepOp (manifestAB.withDirectory "/tmp/istio-release1".toList) .fetch
          ⟨"b".toList, "main".toList, []⟩))) [] manifestAB).outcome =
      .returned (some (stepError .fetch ⟨"b".toList, "main".toList, []⟩
        ⟨"exit status 1".toList⟩)) :=
  (Sources_first_failure
    (failingWorld (fun op => decide (op =
        stepOp (manifestAB.withDirectory "/tmp/istio-release1".toList) .fetch
          ⟨"b".toList, "main".toList, []⟩))) [] manifestAB
    "/tmp/istio-release1".toList
    (setupOps okWorld "/tmp/istio-release1".toList) 1 ⟨"b".toList, "main".toList, []⟩ .fetch
    ⟨"exit status 1".toList⟩ (by decide) (by decide)
    (by
      intro i hi
      have hi3 : i < 3 := hi
      interval_cases i <;> decide)
    (by decide)).1

/-- C6: whenever `Sources` returns a non-nil error, the operation performed
last is a step of a dependency of the manifest that failed with a cause `e`,
and the message of the returned error begins with the text of that step,
contains the `Repo` of the dependency and the message of `e`; the message
begins with the leading text of no other step. -/
theorem Sources_error_message (w : World) (t : List Op) (m : Manifest) (E : GoError)
    (h : (Sources w t m).outcome = .returned (some E)) :
    ∃ d ∈ m.Dependencies, ∃ step e tpre,
      (Sources w t m).trace = tpre ++ [stepOp (Sources w t m).own step d] ∧
      (w.exec tpre (stepOp (Sources w t m).own step d)).err = some e ∧
      E = stepError step d e ∧
      leadingText step <+: E.msg ∧ d.Repo <:+: E.msg ∧ e.msg <:+: E.msg ∧
      ∀ other, leadingText other <+: E.msg → other = step := by
  rcases hs : SetupWorkDir w t with ⟨_ | root, t1⟩
  · simp [Sources, hs] at h
  · rw [Sources_of_setup w t m root t1 hs] at h ⊢
    simp only [Outcome.returned.injEq] at h
    obtain ⟨d, hd, step, e, tpre, h1, h2, rfl⟩ := sourcesLoop_error w _ _ t1 E h
    obtain ⟨m1, m2, m3⟩ := stepError_msg step d e
    exact ⟨d, hd, step, e, tpre, h1, h2, rfl, m1, m2, m3,
      fun other ho => leadingText_unique other step _ ho m1⟩

/-- Witness for C6: the copy of `a` fails; the returned message reads
`failed to copy dependency a to working directory: exit status 1`. -/
theorem Sources_error_message_witness :
    ∃ d ∈ manifestAB.Dependencies, ∃ step e,
      (⟨"failed to copy dependency a to working directory: exit status 1".toList⟩ : GoError) =
        stepError step d e ∧ leadingText step <+: 
          "failed to copy dependency a to working directory: exit status 1".toList := by
  obtain ⟨d, hd, step, e, tpre, -, -, h3, h4, -⟩ := Sources_error_message
    (failingWorld (fun op => decide (op =
        stepOp (manifestAB.withDirectory "/tmp/istio-release1".toList) .copy
          ⟨"a".toList, "main".toList, []⟩))) [] manifestAB
    ⟨"failed to copy dependency a to working directory: exit status 1".toList⟩ (by decide)
  exact ⟨d, hd, step, e, h3, h4⟩

/-! ## `path.Clean` on a path followed by plain names -/

theorem atEnd_append_slash (rest q : Str) : atEnd (rest ++ '/' :: q) = atEnd rest := by
  cases rest <;> simp [atEnd]

theorem takeWhile_append_slash (p q : Str) :
    (p ++ '/' :: q).takeWhile (fun c => c != '/') = p.takeWhile (fun c => c != '/') := by
  induction p with
  | nil => simp
  | cons c rest ih =>
    by_cases hc : c = '/'
    · subst hc; simp
    · simp [List.takeWhile_cons, hc, ih]

theorem dropWhile_append_slash (p q : Str) :
    (p ++ '/' :: q).dropWhile (fun c => c != '/') =
      p.dropWhile (fun c => c != '/') ++ '/' :: q := by
  induction p with
  | nil => simp
  | cons c rest ih =>
    by_cases hc : c = '/'
    · subst hc; simp
    · simp [List.dropWhile_cons, hc, ih]

theorem length_dropWhile_cons_le (c : Char) (rest : Str) (hc : c ≠ '/') :
    ((c :: rest).dropWhile (fun c => c != '/')).length ≤ rest.length := by
  have : (c :: rest).dropWhile (fun c => c != '/') = rest.dropWhile (fun c => c != '/') := by
    simp [List.dropWhile_cons, hc]
  rw [this]
  exact (List.dropWhile_sublist _).length_le

/-- The loop of `path.Clean` does not depend on the fuel once the fuel covers
the unread input: the fuel is never exhausted. -/
theorem cleanLoop_fuel_indep (rooted : Bool) :
    ∀ (f1 f2 : Nat) (path : Str) (st : CleanState), path.length ≤ f1 → path.length ≤ f2 →
      cleanLoop rooted f1 path st = cleanLoop rooted f2 path st := by
  intro f1
  induction f1 with
  | zero =>
    intro f2 path st h1 _
    have : path = [] := List.length_eq_zero.mp (Nat.le_zero.mp h1)
    subst this
    cases f2 <;> simp [cleanLoop]
  | succ f1 ih =>
    intro f2 path st h1 h2
    cases path with
    | nil => cases f2 <;> simp [cleanLoop]
    | cons c rest =>
      cases f2 with
      | zero => simp at h2
      | succ f2 =>
        have hr1 : rest.length ≤ f1 := by simpa using h1
        have hr2 : rest.length ≤ f2 := by simpa using h2
        simp only [cleanLoop]
        split_ifs with hc hd hdd
        · exact ih f2 rest st hr1 hr2
        · exact ih f2 rest st hr1 hr2
        · exact ih f2 rest.tail _ (by rw [List.length_tail]; omega)
            (by rw [List.length_tail]; omega)
        · have := length_dropWhile_cons_le c rest hc
          exact ih f2 _ _ (by omega) (by omega)

theorem cleanLoop_fuel (rooted : Bool) (fuel : Nat) (path : Str) (st : CleanState)
    (h : path.length ≤ fuel) :
    cleanLoop rooted fuel path st = cleanLoop rooted path.length path st :=
  cleanLoop_fuel_indep rooted fuel path.length path st h (le_refl _)

/-- Reading `p`, a slash and `q` is reading `p` and then `q`: the loop is at
the start of an element after a slash, and the tests that look ahead see the
slash as they would see the end of the input. -/
theorem cleanLoop_append_slash (rooted : Bool) :
    ∀ (f3 f1 f2 : Nat) (p q : Str) (st : CleanState),
      p.length ≤ f3 → (p ++ '/' :: q).length ≤ f1 → q.length ≤ f2 →
      cleanLoop rooted f1 (p ++ '/' :: q) st =
        cleanLoop rooted f2 q (cleanLoop rooted f3 p st) := by
  intro f3
  induction f3 with
  | zero =>
    intro f1 f2 p q st h3 h1 h2
    have : p = [] := List.length_eq_zero.mp (Nat.le_zero.mp h3)
    subst this
    cases f1 with
    | zero => simp at h1
    | succ f1 =>
      simp only [List.nil_append, cleanLoop, if_true]
      exact cleanLoop_fuel_indep rooted f1 f2 q st (by simpa using h1) h2
  | succ f3 ih =>
    intro f1 f2 p q st h3 h1 h2
    cases f1 with
    | zero => simp at h1
    | succ f1 =>
      cases p with
      | nil =>
        simp only [List.nil_append, cleanLoop, if_true]
        exact cleanLoop_fuel_indep rooted f1 f2 q st (by simpa using h1) h2
      | cons c rest =>
        have hr3 : rest.length ≤ f3 := by simpa using h3
        have hr1 : (rest ++ '/' :: q).length ≤ f1 := by simpa using h1
        rw [List.cons_append]
        simp only [cleanLoop, atEnd_append_slash]
        by_cases hc : c = '/'
        · simp only [hc, if_true]
          exact ih f1 f2 rest q st hr3 hr1 h2
        · simp only [hc, if_false]
          by_cases hd : c = '.' ∧ atEnd rest = true
          · simp only [hd, and_self, if_true]
            exact ih f1 f2 rest q st hr3 hr1 h2
          · rw [if_neg hd, if_neg hd]
            cases rest with
            | nil =>
              simp only [List.head?_nil, List.nil_append, List.head?_cons, List.tail_nil,
                List.tail_cons]
              have hn1 : ¬ (c = '.' ∧ (none : Option Char) = some '.' ∧ atEnd [] = true) := by
                simp
              have hn2 : ¬ (c = '.' ∧ some '/' = some '.' ∧ atEnd q = true) := by
                simp
              rw [if_neg hn1, if_neg hn2]
              have h5 := takeWhile_append_slash [c] q
              have h6 := dropWhile_append_slash [c] q
              simp only [List.cons_append, List.nil_append] at h5 h6
              rw [h6]
              simp only [elemStep, h5]
              exact ih f1 f2 _ q _ (by
                have := length_dropWhile_cons_le c [] hc
                simp at this
                simp [this]) (by
                have := length_dropWhile_cons_le c [] hc
                simp at this
                simp [this]
                simpa using hr1) h2
            | cons x rest1 =>
              simp only [List.head?_cons, List.cons_append, List.tail_cons, atEnd_append_slash]
              by_cases hdd : c = '.' ∧ some x = some '.' ∧ atEnd rest1 = true
              · rw [if_pos hdd, if_pos hdd]
                exact ih f1 f2 rest1 q _ (by simp at hr3; omega) (by simp at hr1 ⊢; omega) h2
              · rw [if_neg hdd, if_neg hdd]
                have h5 := takeWhile_append_slash (c :: x :: rest1) q
                have h6 := dropWhile_append_slash (c :: x :: rest1) q
                simp only [List.cons_append] at h5 h6
                rw [h6]
                simp only [elemStep, h5]
                have hl := length_dropWhile_cons_le c (x :: rest1) hc
                exact ih f1 f2 _ q _ (by omega) (by
                  simp only [List.length_append, List.length_cons] at hr1 ⊢
                  simp only [List.length_cons] at hl
                  omega) h2

theorem plainName_takeWhile (a : Str) (ha : plainName a) :
    a.takeWhile (fun c => c != '/') = a := by
  rw [List.takeWhile_eq_self_iff]
  intro x hx
  have : x ≠ '/' := fun h => ha.2.1 (h ▸ hx)
  simpa using this

theorem plainName_dropWhile (a : Str) (ha : plainName a) :
    a.dropWhile (fun c => c != '/') = [] := by
  rw [List.dropWhile_eq_nil_iff]
  intro x hx
  have : x ≠ '/' := fun h => ha.2.1 (h ▸ hx)
  simpa using this

/-- The loop of `path.Clean` on a plain name: a slash if needed, then the
name. -/
theorem cleanLoop_name (rooted : Bool) (fuel : Nat) (a : Str) (st : CleanState)
    (ha : plainName a) (hf : a.length ≤ fuel) :
    cleanLoop rooted fuel a st = ⟨withSlash rooted st.out ++ a, st.dotdot⟩ := by
  obtain ⟨hne, hslash, hdot, hdotdot⟩ := ha
  cases a with
  | nil => exact absurd rfl hne
  | cons c rest =>
    cases fuel with
    | zero => simp at hf
    | succ fuel =>
      have hc : c ≠ '/' := fun h => hslash (h ▸ List.mem_cons_self _ _)
      have hrest : ∀ x ∈ rest, x ≠ '/' := fun x hx h =>
        hslash (h ▸ List.mem_cons_of_mem _ hx)
      have hd : ¬ (c = '.' ∧ atEnd rest = true) := by
        rintro ⟨rfl, he⟩
        cases rest with
        | nil => exact hdot rfl
        | cons x r => exact hrest x (List.mem_cons_self _ _) (by simpa [atEnd] using he)
      have hdd : ¬ (c = '.' ∧ rest.head? = some '.' ∧ atEnd rest.tail = true) := by
        rintro ⟨rfl, hh, he⟩
        cases rest with
        | nil => simp at hh
        | cons x r =>
          simp only [List.head?_cons, Option.some.injEq] at hh
          subst hh
          cases r with
          | nil => exact hdotdot rfl
          | cons y r2 =>
            exact hrest y (List.mem_cons_of_mem _ (List.mem_cons_self _ _))
              (by simpa [atEnd] using he)
      have ha : plainName (c :: rest) := ⟨hne, hslash, hdot, hdotdot⟩
      simp only [cleanLoop, if_neg hc, if_neg hd, if_neg hdd, plainName_dropWhile _ ha,
        elemStep, plainName_takeWhile _ ha]
      cases fuel <;> simp [cleanLoop]

theorem withSlash_of_cond (rooted : Bool) (out : Str)
    (h : (rooted = true ∧ out.length ≠ 1) ∨ (rooted = false ∧ out.length ≠ 0)) :
    withSlash rooted out = out ++ ['/'] := by
  unfold withSlash
  rw [if_pos h]

theorem dotdotStep_true (st : CleanState) :
    dotdotStep true st =
      if st.out.length > st.dotdot then
        { st with out := st.out.take (backtrack st.out st.dotdot (st.out.length - 1)) }
      else st := by
  simp [dotdotStep]

theorem withSlash_append_name (rooted : Bool) (out a : Str) (ha : a ≠ [])
    (hout : rooted = true → out ≠ []) :
    withSlash rooted (withSlash rooted out ++ a) = withSlash rooted out ++ a ++ ['/'] := by
  have hlen : 0 < a.length := List.length_pos.mpr ha
  have hge : out.length ≤ (withSlash rooted out).length := by
    unfold withSlash; split_ifs <;> simp
  have hcond : (rooted = true ∧ (withSlash rooted out ++ a).length ≠ 1) ∨
      (rooted = false ∧ (withSlash rooted out ++ a).length ≠ 0) := by
    cases rooted with
    | true =>
      left
      have := List.length_pos.mpr (hout rfl)
      refine ⟨rfl, ?_⟩
      simp only [List.length_append]
      omega
    | false =>
      right
      refine ⟨rfl, ?_⟩
      simp only [List.length_append]
      omega
  exact withSlash_of_cond rooted _ hcond

/-- The loop of `path.Clean` on two plain names separated by a slash. -/
theorem cleanLoop_two_names (rooted : Bool) (fuel : Nat) (a r : Str) (st : CleanState)
    (ha : plainName a) (hr : plainName r) (hout : rooted = true → st.out ≠ [])
    (hf : (a ++ '/' :: r).length ≤ fuel) :
    cleanLoop rooted fuel (a ++ '/' :: r) st =
      ⟨withSlash rooted st.out ++ a ++ '/' :: r, st.dotdot⟩ := by
  rw [cleanLoop_append_slash rooted a.length fuel r.length a r st (le_refl _) hf (le_refl _),
    cleanLoop_name rooted _ a st ha (le_refl _),
    cleanLoop_name rooted _ r _ hr (le_refl _)]
  simp only [withSlash_append_name rooted st.out a ha.1 hout, List.append_assoc,
    List.singleton_append]

theorem backtrack_ge (out : Str) (dd : Nat) : ∀ w, dd ≤ w → dd ≤ backtrack out dd w := by
  intro w
  induction w with
  | zero => intro h; simpa [backtrack] using h
  | succ w ih =>
    intro h
    unfold backtrack
    split_ifs with hc
    · exact ih (by omega)
    · exact h

theorem head?_take_of_pos {α : Type} (l : List α) (n : Nat) (hn : 1 ≤ n) :
    (l.take n).head? = l.head? := by
  cases l with
  | nil => simp
  | cons x xs =>
    cases n with
    | zero => omega
    | succ n => simp

/-- In a rooted path the output of the loop of `path.Clean` always begins
with the leading slash, which `..` never removes. -/
theorem cleanLoop_rooted_head :
    ∀ (fuel : Nat) (path : Str) (st : CleanState),
      st.out.head? = some '/' → 1 ≤ st.dotdot →
      (cleanLoop true fuel path st).out.head? = some '/' ∧
        1 ≤ (cleanLoop true fuel path st).dotdot := by
  intro fuel
  induction fuel with
  | zero => intro path st h1 h2; exact ⟨h1, h2⟩
  | succ fuel ih =>
    intro path st h1 h2
    cases path with
    | nil => exact ⟨h1, h2⟩
    | cons c rest =>
      have hne : st.out ≠ [] := by
        intro h; rw [h] at h1; simp at h1
      simp only [cleanLoop]
      split_ifs with hc hd hdd
      · exact ih rest st h1 h2
      · exact ih rest st h1 h2
      · apply ih
        · rw [dotdotStep_true]
          split_ifs with hlt
          · simp only
            rw [head?_take_of_pos _ _
              (le_trans h2 (backtrack_ge st.out st.dotdot _ (by omega)))]
            exact h1
          · exact h1
        · rw [dotdotStep_true]
          split_ifs with hlt
          · exact h2
          · exact h2
      · apply ih
        · simp only [elemStep]
          have : (withSlash true st.out).head? = some '/' := by
            by_cases hcond : (true = true ∧ st.out.length ≠ 1) ∨
                (true = false ∧ st.out.length ≠ 0)
            · rw [withSlash_of_cond _ _ hcond, List.head?_append_of_ne_nil _ hne]
              exact h1
            · unfold withSlash
              rw [if_neg hcond]
              exact h1
          have hne2 : withSlash true st.out ≠ [] := by
            intro h; rw [h] at this; simp at this
          rw [List.head?_append_of_ne_nil _ hne2]
          exact this
        · exact h2

/-- Reading `B`, a slash and one or two plain names: the output is a prefix
`Y` that depends on `B` alone, empty or ending in a slash, followed by the
names. -/
theorem cleanLoop_then_names (rooted : Bool) (st0 : CleanState) (B : Str)
    (hroot : rooted = true → st0.out.head? = some '/' ∧ 1 ≤ st0.dotdot) :
    ∃ Y : Str, (Y = [] ∨ ∃ Z, Y = Z ++ ['/']) ∧ (rooted = true → Y ≠ []) ∧
      (∀ a, plainName a → ∀ f, (B ++ '/' :: a).length ≤ f →
        (cleanLoop rooted f (B ++ '/' :: a) st0).out = Y ++ a) ∧
      (∀ a r, plainName a → plainName r → ∀ f, (B ++ '/' :: (a ++ '/' :: r)).length ≤ f →
        (cleanLoop rooted f (B ++ '/' :: (a ++ '/' :: r)) st0).out = Y ++ a ++ '/' :: r) := by
  have hhead : rooted = true →
      (cleanLoop rooted B.length B st0).out.head? = some '/' := by
    intro hr
    subst hr
    exact (cleanLoop_rooted_head B.length B st0 (hroot rfl).1 (hroot rfl).2).1
  have hne : rooted = true → (cleanLoop rooted B.length B st0).out ≠ [] := by
    intro hr h
    have := hhead hr
    rw [h] at this
    simp at this
  refine ⟨withSlash rooted (cleanLoop rooted B.length B st0).out, ?_, ?_, ?_, ?_⟩
  · by_cases hcond : (rooted = true ∧ (cleanLoop rooted B.length B st0).out.length ≠ 1) ∨
        (rooted = false ∧ (cleanLoop rooted B.length B st0).out.length ≠ 0)
    · exact Or.inr ⟨_, withSlash_of_cond _ _ hcond⟩
    · have hw : withSlash rooted (cleanLoop rooted B.length B st0).out =
          (cleanLoop rooted B.length B st0).out := by
        unfold withSlash; rw [if_neg hcond]
      rw [hw]
      cases rooted with
      | true =>
        right
        have hh := hhead rfl
        have hl : (cleanLoop true B.length B st0).out.length = 1 := by
          by_contra hl
          exact hcond (Or.inl ⟨rfl, hl⟩)
        obtain ⟨x, hx⟩ := List.length_eq_one.mp hl
        rw [hx] at hh ⊢
        simp only [List.head?_cons, Option.some.injEq] at hh
        exact ⟨[], by simp [hh]⟩
      | false =>
        left
        have hl : (cleanLoop false B.length B st0).out.length = 0 := by
          by_contra hl
          exact hcond (Or.inr ⟨rfl, hl⟩)
        exact List.length_eq_zero.mp hl
  · intro hr h
    have h1 := hne hr
    unfold withSlash at h
    split_ifs at h
    · simp at h
    · exact h1 h
  · intro a ha f hf
    rw [cleanLoop_append_slash rooted B.length f a.length B a st0 (le_refl _) hf (le_refl _),
      cleanLoop_name rooted _ a _ ha (le_refl _)]
  · intro a r ha hr f hf
    rw [cleanLoop_append_slash rooted B.length f (a ++ '/' :: r).length B (a ++ '/' :: r) st0
        (le_refl _) hf (le_refl _),
      cleanLoop_two_names rooted _ a r _ ha hr hne (le_refl _)]

theorem Clean_cons (c : Char) (rest : Str) :
    Clean (c :: rest) =
      if c = '/' then
        (if (cleanLoop true (rest.length + 1) rest ⟨['/'], 1⟩).out.length = 0 then ['.']
          else (cleanLoop true (rest.length + 1) rest ⟨['/'], 1⟩).out)
      else
        (if (cleanLoop false (rest.length + 1) (c :: rest) ⟨[], 0⟩).out.length = 0 then ['.']
          else (cleanLoop false (rest.length + 1) (c :: rest) ⟨[], 0⟩).out) := by
  by_cases hc : c = '/'
  · subst hc
    simp [Clean]
  · simp [Clean, hc]

/-- `path.Clean` of a path, a slash and one or two plain names: a prefix `Y`
that depends on the path alone, empty or ending in a slash, followed by the
names with a slash between them. -/
theorem Clean_slash_names (P : Str) :
    ∃ Y : Str, (Y = [] ∨ ∃ Z, Y = Z ++ ['/']) ∧
      (∀ a, plainName a → Clean (P ++ '/' :: a) = Y ++ a) ∧
      (∀ a r, plainName a → plainName r →
        Clean (P ++ '/' :: (a ++ '/' :: r)) = Y ++ a ++ '/' :: r) := by
  have key : ∀ (rooted : Bool) (st0 : CleanState) (B : Str),
      (rooted = true → st0.out.head? = some '/' ∧ 1 ≤ st0.dotdot) →
      ∃ Y : Str, (Y = [] ∨ ∃ Z, Y = Z ++ ['/']) ∧
        (∀ a, plainName a → ∀ f, (B ++ '/' :: a).length ≤ f →
          (if (cleanLoop rooted f (B ++ '/' :: a) st0).out.length = 0 then ['.']
            else (cleanLoop rooted f (B ++ '/' :: a) st0).out) = Y ++ a) ∧
        (∀ a r, plainName a → plainName r → ∀ f, (B ++ '/' :: (a ++ '/' :: r)).length ≤ f →
          (if (cleanLoop rooted f (B ++ '/' :: (a ++ '/' :: r)) st0).out.length = 0 then ['.']
            else (cleanLoop rooted f (B ++ '/' :: (a ++ '/' :: r)) st0).out) =
            Y ++ a ++ '/' :: r) := by
    intro rooted st0 B hroot
    obtain ⟨Y, hY, -, h1, h2⟩ := cleanLoop_then_names rooted st0 B hroot
    refine ⟨Y, hY, ?_, ?_⟩
    · intro a ha f hf
      rw [h1 a ha f hf, if_neg]
      have := List.length_pos.mpr ha.1
      simp only [List.length_append]
      omega
    · intro a r ha hr f hf
      rw [h2 a r ha hr f hf, if_neg]
      simp
  cases P with
  | nil =>
    obtain ⟨Y, hY, h1, h2⟩ := key true ⟨['/'], 1⟩ [] (fun _ => ⟨rfl, le_refl _⟩)
    refine ⟨Y, hY, ?_, ?_⟩
    · intro a ha
      have := h1 a ha (a.length + 1 + 1) (by simp)
      simp only [List.nil_append, cleanLoop, if_true] at this
      rw [List.nil_append, Clean_cons, if_pos rfl]
      exact this
    · intro a r ha hr
      have := h2 a r ha hr ((a ++ '/' :: r).length + 1 + 1) (by simp)
      simp only [List.nil_append, cleanLoop, if_true] at this
      rw [List.nil_append, Clean_cons, if_pos rfl]
      exact this
  | cons c P1 =>
    by_cases hc : c = '/'
    · subst hc
      obtain ⟨Y, hY, h1, h2⟩ := key true ⟨['/'], 1⟩ P1 (fun _ => ⟨rfl, le_refl _⟩)
      refine ⟨Y, hY, ?_, ?_⟩
      · intro a ha
        rw [List.cons_append, Clean_cons, if_pos rfl]
        exact h1 a ha _ (by simp)
      · intro a r ha hr
        rw [List.cons_append, Clean_cons, if_pos rfl]
        exact h2 a r ha hr _ (by simp)
    · obtain ⟨Y, hY, h1, h2⟩ := key false ⟨[], 0⟩ (c :: P1) (fun h => by simp at h)
      refine ⟨Y, hY, ?_, ?_⟩
      · intro a ha
        rw [List.cons_append, Clean_cons, if_neg hc]
        exact h1 a ha _ (by simp)
      · intro a r ha hr
        rw [List.cons_append, Clean_cons, if_neg hc]
        exact h2 a r ha hr _ (by simp)

theorem Clean_name (a : Str) (ha : plainName a) : Clean a = a := by
  obtain ⟨c, rest, rfl⟩ := List.exists_cons_of_ne_nil ha.1
  have hc : c ≠ '/' := fun h => ha.2.1 (h ▸ List.mem_cons_self _ _)
  rw [Clean_cons, if_neg hc, cleanLoop_name false _ _ _ ha (by simp)]
  simp [withSlash]

theorem Clean_two_names (a r : Str) (ha : plainName a) (hr : plainName r) :
    Clean (a ++ '/' :: r) = a ++ '/' :: r := by
  obtain ⟨c, rest, rfl⟩ := List.exists_cons_of_ne_nil ha.1
  have hc : c ≠ '/' := fun h => ha.2.1 (h ▸ List.mem_cons_self _ _)
  rw [List.cons_append, Clean_cons, if_neg hc, ← List.cons_append,
    cleanLoop_two_names false _ _ _ _ ha hr (fun h => by simp at h) (by simp)]
  simp [withSlash]

theorem Join_pair (D a : Str) (hD : D ≠ []) : Join [D, a] = Clean (D ++ '/' :: a) := by
  simp [Join, hD, List.intercalate]

theorem Join_nil_pair (a : Str) (ha : a ≠ []) : Join [[], a] = Clean a := by
  simp [Join, ha, List.intercalate]

/-- The paths `path.Join(path.Join(D, a), r)` for plain names `a` and `r`: a
prefix that depends on `D` alone, then `a`, a slash, and `r`. -/
theorem Join_Join_names (D : Str) :
    ∃ X : Str, ∀ a r, plainName a → plainName r →
      Join [Join [D, a], r] = X ++ a ++ '/' :: r := by
  by_cases hD : D = []
  · subst hD
    refine ⟨[], fun a r ha hr => ?_⟩
    rw [Join_nil_pair a ha.1, Clean_name a ha, Join_pair a r ha.1, Clean_two_names a r ha hr]
    rfl
  · obtain ⟨Y, hY, h1, -⟩ := Clean_slash_names D
    rcases hY with rfl | ⟨Z, rfl⟩
    · refine ⟨[], fun a r ha hr => ?_⟩
      rw [Join_pair D a hD, h1 a ha, List.nil_append, Join_pair a r ha.1,
        Clean_two_names a r ha hr]
    · obtain ⟨X, -, -, h2⟩ := Clean_slash_names Z
      refine ⟨X, fun a r ha hr => ?_⟩
      rw [Join_pair D a hD, h1 a ha, Join_pair _ r (by simp)]
      have : Z ++ ['/'] ++ a ++ '/' :: r = Z ++ '/' :: (a ++ '/' :: r) := by simp
      rw [this]
      exact h2 a r ha hr

/-! ## The per-dependency paths -/

theorem plainName_sources : plainName "sources".toList := by decide

theorem plainName_work : plainName "work".toList := by decide

theorem sourcePath_injective (m : Manifest) (r1 r2 : Str) (h1 : plainName r1)
    (h2 : plainName r2) (h : Join [m.SourceDir, r1] = Join [m.SourceDir, r2]) : r1 = r2 := by
  obtain ⟨X, hX⟩ := Join_Join_names m.Directory
  unfold Manifest.SourceDir at h
  rw [hX _ r1 plainName_sources h1, hX _ r2 plainName_sources h2] at h
  have := List.append_cancel_left h
  simpa using this

theorem workPath_injective (m : Manifest) (r1 r2 : Str) (h1 : plainName r1)
    (h2 : plainName r2) (h : m.RepoDir r1 = m.RepoDir r2) : r1 = r2 := by
  obtain ⟨X, hX⟩ := Join_Join_names m.Directory
  unfold Manifest.RepoDir Manifest.WorkDir at h
  rw [hX _ r1 plainName_work h1, hX _ r2 plainName_work h2] at h
  have := List.append_cancel_left h
  simpa using this

theorem workPath_ne_sourcePath (m : Manifest) (r1 r2 : Str) (h1 : plainName r1)
    (h2 : plainName r2) : m.RepoDir r1 ≠ Join [m.SourceDir, r2] := by
  obtain ⟨X, hX⟩ := Join_Join_names m.Directory
  unfold Manifest.RepoDir Manifest.WorkDir Manifest.SourceDir
  rw [hX _ r1 plainName_work h1, hX _ r2 plainName_sources h2, List.append_assoc,
    List.append_assoc]
  intro h
  have := List.append_cancel_left h
  simp at this

/-- C8, as the code has it: the names `a`, `a/` and `../sources/a` are pairwise
distinct, yet `a` and `a/` have the same source-cache path and the same
working-copy path, and the working-copy path of `../sources/a` is the
source-cache path of `a`. -/
theorem paths_collide_for_distinct_names :
    (manifestAlias.Dependencies.map Dependency.Repo).Nodup ∧
    Join [manifestAlias.SourceDir, "a".toList] = Join [manifestAlias.SourceDir, "a/".toList] ∧
    manifestAlias.RepoDir "a".toList = manifestAlias.RepoDir "a/".toList ∧
    manifestAlias.RepoDir "../sources/a".toList =
      Join [manifestAlias.SourceDir, "a".toList] := by
  decide

/-- C8, amended: in a manifest whose `Repo` names are pairwise distinct plain
names (non-empty, without a slash, neither `.` nor `..`), two different
dependencies have different source-cache paths `path.Join(SourceDir, Repo)`
and different working-copy paths `RepoDir(Repo)`, and no working-copy path
equals a source-cache path. -/
theorem paths_private_for_plain_names (m : Manifest) (d1 d2 : Dependency)
    (hnodup : (m.Dependencies.map Dependency.Repo).Nodup)
    (hplain : ∀ d ∈ m.Dependencies, plainName d.Repo)
    (h1 : d1 ∈ m.Dependencies) (h2 : d2 ∈ m.Dependencies) (hne : d1 ≠ d2) :
    Join [m.SourceDir, d1.Repo] ≠ Join [m.SourceDir, d2.Repo] ∧
    m.RepoDir d1.Repo ≠ m.RepoDir d2.Repo ∧
    ∀ d ∈ m.Dependencies, ∀ e ∈ m.Dependencies,
      m.RepoDir d.Repo ≠ Join [m.SourceDir, e.Repo] := by
  have hrepo : d1.Repo ≠ d2.Repo := fun h =>
    hne (List.inj_on_of_nodup_map hnodup h1 h2 h)
  refine ⟨fun h => hrepo (sourcePath_injective m _ _ (hplain d1 h1) (hplain d2 h2) h),
    fun h => hrepo (workPath_injective m _ _ (hplain d1 h1) (hplain d2 h2) h),
    fun d hd e he => workPath_ne_sourcePath m _ _ (hplain d hd) (hplain e he)⟩

/-- Witness for C8, amended: the dependencies `a` and `b` in the workspace root
`/tmp/istio-release1`. -/
theorem paths_private_for_plain_names_witness :
    Join [manifestInWork.SourceDir, "a".toList] ≠ Join [manifestInWork.SourceDir, "b".toList] :=
  (paths_private_for_plain_names manifestInWork ⟨"a".toList, "main".toList, []⟩
    ⟨"b".toList, "main".toList, []⟩ (by decide) (by decide) (by decide) (by decide)
    (by decide)).1

/-- C5, as the code has it: for the dependency named `..` everything succeeds,
and the tag is applied in `/tmp/istio-release1`, the very path the dependency
was fetched into. -/
theorem Sources_tags_source_path :
    (Sources okWorld [] manifestDotDot).outcome = .returned none ∧
    (Sources okWorld [] manifestDotDot).trace =
      setupOps okWorld "/tmp/istio-release1".toList ++
        [Op.Clone ⟨"..".toList, "main".toList, []⟩ "/tmp/istio-release1".toList,
         Op.CopyDir "/tmp/istio-release1".toList "/tmp/istio-release1".toList,
         Op.Run "git".toList ["tag".toList, "v1.2.3".toList] "/tmp/istio-release1".toList] := by
  decide

/-- C5, amended: when the workspace root was set up and no fetch, copy or tag
fails, `Sources` returns `nil` and the operations it performed after the setup
are exactly three per dependency, in manifest order: fetch into
`path.Join(SourceDir, Repo)`, copy from that path to `RepoDir(Repo)`, tag
`RepoDir(Repo)` with the version, the paths being computed from the root
returned by `SetupWorkDir`.  When the `Repo` names are plain names, the path
that is tagged is the source-cache path of no dependency. -/
theorem Sources_all_steps (w : World) (t : List Op) (m : Manifest) (root : Str)
    (t1 : List Op)
    (hsetup : SetupWorkDir w t = (some root, t1))
    (hok : ∀ i, i < 3 * m.Dependencies.length →
      runErr w t1 (sourcesPlan (m.withDirectory root) m.Dependencies) i = none) :
    (Sources w t m).outcome = .returned none ∧
    (Sources w t m).trace = t1 ++ sourcesPlan (m.withDirectory root) m.Dependencies ∧
    (sourcesPlan (m.withDirectory root) m.Dependencies).length = 3 * m.Dependencies.length ∧
    (∀ k d, m.Dependencies[k]? = some d →
      (sourcesPlan (m.withDirectory root) m.Dependencies)[3 * k]? =
        some (Op.Clone d (Join [(m.withDirectory root).SourceDir, d.Repo])) ∧
      (sourcesPlan (m.withDirectory root) m.Dependencies)[3 * k + 1]? =
        some (Op.CopyDir (Join [(m.withDirectory root).SourceDir, d.Repo])
          ((m.withDirectory root).RepoDir d.Repo)) ∧
      (sourcesPlan (m.withDirectory root) m.Dependencies)[3 * k + 2]? =
        some (Op.Run "git".toList ["tag".toList, m.Version]
          ((m.withDirectory root).RepoDir d.Repo))) ∧
    ((∀ d ∈ m.Dependencies, plainName d.Repo) →
      ∀ d ∈ m.Dependencies, ∀ e ∈ m.Dependencies,
        (m.withDirectory root).RepoDir d.Repo ≠
          Join [(m.withDirectory root).SourceDir, e.Repo]) := by
  have hlen := sourcesPlan_length (m.withDirectory root) m.Dependencies
  have hspec := sourcesLoop_spec w (m.withDirectory root) m.Dependencies t1
    (sourcesPlan (m.withDirectory root) m.Dependencies).length (le_refl _)
    (fun i hi => hok i (by omega)) (fun h => absurd h (lt_irrefl _))
  rw [runErr_of_length_le w t1 _ _ (le_refl _), List.take_of_length_le (by omega)] at hspec
  have hnone : (match m.Dependencies[(sourcesPlan (m.withDirectory root)
        m.Dependencies).length / 3]?, (none : Option GoError) with
      | some d, some e => some (stepError (stepOfIndex
          ((sourcesPlan (m.withDirectory root) m.Dependencies).length % 3)) d e)
      | _, _ => none) = none := by
    cases m.Dependencies[(sourcesPlan (m.withDirectory root) m.Dependencies).length / 3]? <;> rfl
  rw [hnone] at hspec
  rw [Sources_of_setup w t m root t1 hsetup, hspec]
  refine ⟨rfl, rfl, hlen, ?_, ?_⟩
  · intro k d hk
    have h0 := sourcesPlan_getElem (m.withDirectory root) _ k .fetch d hk
    have h1 := sourcesPlan_getElem (m.withDirectory root) _ k .copy d hk
    have h2 := sourcesPlan_getElem (m.withDirectory root) _ k .tag d hk
    exact ⟨h0, h1, h2⟩
  · intro hplain d hd e he
    exact workPath_ne_sourcePath _ _ _ (hplain d hd) (hplain e he)

/-- Witness for C5, amended: in a world where everything succeeds, `Sources`
on the two-dependency manifest returns `nil`. -/
theorem Sources_all_steps_witness :
    (Sources okWorld [] manifestAB).outcome = .returned none :=
  (Sources_all_steps okWorld [] manifestAB "/tmp/istio-release1".toList
    (setupOps okWorld "/tmp/istio-release1".toList) (by decide)
    (by
      intro i hi
      have hi6 : i < 6 := hi
      interval_cases i <;> decide)).1

end ReleaseBuilder
